import Mathlib

/-!
Verification development for the project materialization pipeline of the
code-generation CLI agent (modules `agent.py`, `tools.py`, `utils.py`).

Python strings are modelled as `List Char` (`PyStr`); Python's `str` methods
(`strip`, `lstrip`, `rstrip`, `startswith`, `replace` of a single character,
`splitlines`, case-insensitive comparison) are embedded as list functions.
The on-disk repository tree is modelled as an association list from
repository-relative path strings to file contents (`FS`); `Tools.write`
becomes `fsWrite`, existence checks become `fsExists`.  Results of the
external JSON decoder (`json.loads`) and of the Python AST parser
(`ast.parse` plus the import-collecting walk) are supplied as oracle inputs
(`Option JValue`, `astOf`), since both are library calls outside this
repository; everything downstream of those calls is translated from the
source.
-/

/-! ## Python string model -/

/-- A Python string, modelled as its list of characters. -/
abbrev PyStr := List Char

/-- Python's default whitespace class used by `str.strip()` / `\s`. -/
def pyWs (c : Char) : Bool := c.isWhitespace

/-- `str.lstrip()` (default whitespace). -/
def pyLStripWs (s : PyStr) : PyStr := s.dropWhile pyWs

/-- `str.rstrip()` (default whitespace). -/
def pyRStripWs (s : PyStr) : PyStr := (s.reverse.dropWhile pyWs).reverse

/-- `str.strip()` (default whitespace). -/
def pyStrip (s : PyStr) : PyStr := pyRStripWs (pyLStripWs s)

/-- `str.lstrip("/")`. -/
def lstripSlash (s : PyStr) : PyStr := s.dropWhile (· == '/')

/-- `str.rstrip("/")`. -/
def rstripSlash (s : PyStr) : PyStr := (s.reverse.dropWhile (· == '/')).reverse

/-- `str.strip("/")`. -/
def stripSlash (s : PyStr) : PyStr := rstripSlash (lstripSlash s)

/-- `str.replace("\\", "/")` (single-character pattern). -/
def replaceBackslash (s : PyStr) : PyStr := s.map (fun c => if c = '\\' then '/' else c)

/-- Split a string at every occurrence of the character `c`
(the semantics of `str.split(c)`: `n` separators yield `n+1` pieces). -/
def splitOnChar (c : Char) : PyStr → List PyStr
  | [] => [[]]
  | x :: xs =>
    if x = c then [] :: splitOnChar c xs
    else
      match splitOnChar c xs with
      | [] => [[x]]
      | h :: t => (x :: h) :: t

/-- Lowercase a string character-wise (model of `re.IGNORECASE` folding). -/
def lowerStr (s : PyStr) : PyStr := s.map Char.toLower

/-- Case-insensitive `str.startswith`: `pat` is given already lowercased. -/
def ciHasPfx (pat s : PyStr) : Bool := pat.isPrefixOf (lowerStr s)

/-! ## `Tools._safe` (tools.py lines 14-18): the path sandbox -/

/-- One path segment (a component between `/` separators). -/
abbrev Seg := PyStr

/-- `Path.resolve()` segment processing: starting from the absolute path
`base`, apply the relative segments `rel`, popping on `..`, skipping `.`.
Popping above the filesystem root stays at the root (as `resolve` does). -/
def resolveSegs (base : List Seg) (rel : List Seg) : List Seg :=
  rel.foldl
    (fun acc s =>
      if s = ['.', '.'] then acc.dropLast
      else if s = ['.'] then acc
      else acc ++ [s])
    base

/-- The non-empty segments of a relative path string (the components
`pathlib` keeps: empty runs between slashes and lone `.` are dropped). -/
def relSegs (s : PyStr) : List Seg :=
  (splitOnChar '/' s).filter (fun seg => !(seg.isEmpty || seg == ['.']))

/-- `str(Path(...))` for an absolute path given by its segments:
`/` followed by the `/`-joined segments (so `[]` renders as `/`). -/
def renderAbs (p : List Seg) : PyStr := '/' :: List.intercalate ['/'] p

/-- The absolute path `(repo_path / rel_path).resolve()` computes, as
segments.  A `rel_path` starting with `/` replaces `repo_path` entirely
(the semantics of `pathlib`'s `/` operator on an absolute right operand). -/
def toolsResolve (repo : List Seg) (rel : PyStr) : List Seg :=
  resolveSegs (if rel.head? = some '/' then [] else repo) (relSegs rel)

/-- The acceptance test of `Tools._safe`: the resolved path's string
representation must start with the repository root's string representation
(`str(p).startswith(str(self.repo_path))`); otherwise a `ValueError`
("Unsafe path traversal blocked.") is raised and the operation fails. -/
def toolsSafeAccepts (repo : List Seg) (rel : PyStr) : Bool :=
  (renderAbs repo).isPrefixOf (renderAbs (toolsResolve repo rel))

/-- Whether the segment path `p` actually lies inside the repository root
`repo` (is `repo` itself or a descendant of it). -/
def segsUnder (repo p : List Seg) : Bool := repo.isPrefixOf p

/-! ## Claim C1 -/

/-- Failing input for C1: repository root `/root/repo`,
relative path `../repo2/x`. -/
def c1RepoSegs : List Seg := [("root").toList, ("repo").toList]

/-- The C1 failing relative path as a string. -/
def c1Rel : PyStr := ("../repo2/x").toList

/--
C1: the spec claims every path operation whose resolved absolute path
escapes the configured repository root is rejected.  The code's check in
`Tools._safe` compares rendered path strings with `startswith`, so the
resolved path `/root/repo2/x`, which lies outside the root `/root/repo`,
is accepted: the string `/root/repo2/x` starts with the string
`/root/repo`.  This theorem evaluates the embedded check at that failing
input: the operation is accepted although the resolved path is not under
the repository root, contradicting the claim (and the code's own error
message, which promises that unsafe traversal is blocked).
-/
theorem c1_safe_accepts_sibling_escape :
    toolsSafeAccepts c1RepoSegs c1Rel = true ∧
      segsUnder c1RepoSegs (toolsResolve c1RepoSegs c1Rel) = false := by
  decide

/-! ## Generic list/string helper lemmas -/

theorem dropWhile_eq_self_of_head? {p : Char → Bool} {l : PyStr}
    (h : ∀ c, l.head? = some c → p c = false) : l.dropWhile p = l := by
  cases l with
  | nil => rfl
  | cons x xs => simp [List.dropWhile_cons, h x rfl]

theorem head?_dropWhile_not {p : Char → Bool} {l : PyStr} {c : Char}
    (h : (l.dropWhile p).head? = some c) : p c = false := by
  induction l with
  | nil => simp [List.dropWhile] at h
  | cons x xs ih =>
    by_cases hx : p x
    · rw [List.dropWhile_cons, if_pos hx] at h
      exact ih h
    · rw [List.dropWhile_cons, if_neg hx] at h
      simp only [List.head?_cons, Option.some.injEq] at h
      rw [← h]
      exact Bool.eq_false_iff.mpr hx

theorem prefix_head?_eq {l₁ l₂ : PyStr} (h : l₁ <+: l₂) (h1 : l₁ ≠ []) :
    l₂.head? = l₁.head? := by
  obtain ⟨t, rfl⟩ := h
  cases l₁ with
  | nil => exact absurd rfl h1
  | cons x xs => simp

theorem head?_append_left {l₁ l₂ : PyStr} (h : l₁ ≠ []) :
    (l₁ ++ l₂).head? = l₁.head? := by
  cases l₁ with
  | nil => exact absurd rfl h
  | cons x xs => simp

theorem map_id_of_forall {f : Char → Char} {l : PyStr}
    (h : ∀ c ∈ l, f c = c) : l.map f = l := by
  induction l with
  | nil => rfl
  | cons x xs ih =>
    rw [List.map_cons, h x (by simp), ih (fun c hc => h c (by simp [hc]))]

/-! ## `Agent._norm_rel` and `Agent._relocate_into_dir` (agent.py 46-69) -/

/-- `Agent._norm_rel`: `rel_path.lstrip("/").replace("\\", "/").strip()`. -/
def norm_rel (s : PyStr) : PyStr := pyStrip (replaceBackslash (lstripSlash s))

/-- `Agent._relocate_into_dir`: normalize, return unchanged when the target
directory is empty or `.` or the path already starts with
`target_dir.rstrip("/") + "/"`, otherwise prepend that prefix. -/
def relocate_into_dir (rel_path target_dir : PyStr) : PyStr :=
  if target_dir = [] ∨ target_dir = ['.'] then norm_rel rel_path
  else if (rstripSlash target_dir ++ ['/']).isPrefixOf (norm_rel rel_path) then
    norm_rel rel_path
  else (rstripSlash target_dir ++ ['/']) ++ norm_rel rel_path

/-! Structural facts about `norm_rel` outputs. -/

theorem mem_pyStrip {c : Char} {l : PyStr} (h : c ∈ pyStrip l) : c ∈ l := by
  unfold pyStrip pyRStripWs pyLStripWs at h
  rw [List.mem_reverse] at h
  have h2 := (List.dropWhile_sublist _).subset h
  rw [List.mem_reverse] at h2
  exact (List.dropWhile_sublist _).subset h2

theorem replaceBackslash_no_bs (s : PyStr) : '\\' ∉ replaceBackslash s := by
  intro hmem
  unfold replaceBackslash at hmem
  rw [List.mem_map] at hmem
  obtain ⟨c, _, hc⟩ := hmem
  by_cases h : c = '\\'
  · rw [if_pos h] at hc
    exact absurd hc (by decide)
  · rw [if_neg h] at hc
    exact h hc

theorem replaceBackslash_eq_self {s : PyStr} (h : '\\' ∉ s) :
    replaceBackslash s = s :=
  map_id_of_forall (fun c hc => by
    have hne : c ≠ '\\' := fun e => h (e ▸ hc)
    simp [hne])

theorem norm_rel_no_bs (p : PyStr) : '\\' ∉ norm_rel p := by
  intro h
  exact replaceBackslash_no_bs _ (mem_pyStrip h)

theorem pyStrip_rev_head? {l : PyStr} {c : Char}
    (h : (pyStrip l).reverse.head? = some c) : pyWs c = false := by
  have e : (pyStrip l).reverse = (l.dropWhile pyWs).reverse.dropWhile pyWs := by
    simp [pyStrip, pyRStripWs, pyLStripWs]
  rw [e] at h
  exact head?_dropWhile_not h

theorem norm_rel_rev_head? {p : PyStr} {c : Char}
    (h : (norm_rel p).reverse.head? = some c) : pyWs c = false :=
  pyStrip_rev_head? h

theorem pyStrip_eq_self {l : PyStr}
    (hh : ∀ c, l.head? = some c → pyWs c = false)
    (ht : ∀ c, l.reverse.head? = some c → pyWs c = false) : pyStrip l = l := by
  unfold pyStrip pyLStripWs
  rw [dropWhile_eq_self_of_head? hh]
  unfold pyRStripWs
  rw [dropWhile_eq_self_of_head? ht, List.reverse_reverse]

theorem norm_rel_eq_self {s : PyStr}
    (hh : ∀ c, s.head? = some c → c ≠ '/' ∧ pyWs c = false)
    (hbs : '\\' ∉ s)
    (ht : ∀ c, s.reverse.head? = some c → pyWs c = false) :
    norm_rel s = s := by
  unfold norm_rel lstripSlash
  rw [dropWhile_eq_self_of_head? (fun c hc => by
    have := (hh c hc).1
    simp [this]),
    replaceBackslash_eq_self hbs]
  exact pyStrip_eq_self (fun c hc => (hh c hc).2) ht

/-! ## Claim C3 -/

/-- C3 counterexample target directory: `a\b` (contains a backslash). -/
def c3Dir : PyStr := ("a\\b").toList

/-- C3 counterexample path. -/
def c3Path : PyStr := ("c").toList

/--
C3 counterexample: the claim states `relocate(relocate(p, d), d) ==
relocate(p, d)` for every path `p` and every target directory `d`.  For
`d = "a\b"` and `p = "c"` the first relocation yields `a\b/c`; the second
normalizes the backslash to `a/b/c`, which no longer starts with the
prefix `a\b/`, so the result is `a\b/a/b/c`, not `a\b/c`.  Idempotence
fails.
-/
theorem c3_not_idempotent_backslash :
    relocate_into_dir (relocate_into_dir c3Path c3Dir) c3Dir ≠
      relocate_into_dir c3Path c3Dir := by
  decide

/--
C3 amended: idempotence holds for every path `p` whenever the target
directory is a normalized directory name: nonempty, not `.`, not starting
with `/`, containing no backslash and no whitespace.  (A target containing
a backslash, surrounding whitespace, or a leading slash is itself rewritten
by the normalization pass of the second call, so the relocated path can
shift again, as the counterexample shows.)  Each path is relocated
independently of the rest of the file set: `relocate_into_dir` is a pure
function of the single path and the target directory.
-/
theorem c3_relocate_idempotent_clean (p d : PyStr)
    (hne : d ≠ []) (hdot : d ≠ ['.'])
    (hsl : d.head? ≠ some '/')
    (hbs : '\\' ∉ d)
    (hws : ∀ c ∈ d, pyWs c = false) :
    relocate_into_dir (relocate_into_dir p d) d = relocate_into_dir p d := by
  have hcond : ¬(d = [] ∨ d = ['.']) := by
    intro h
    cases h with
    | inl h => exact hne h
    | inr h => exact hdot h
  set r : PyStr := norm_rel p with hrdef
  set r0 : PyStr := rstripSlash d with hr0def
  set pfx : PyStr := r0 ++ ['/'] with hpfxdef
  -- r0 is a nonempty prefix of d
  have hr0pre : r0 <+: d := by
    rw [hr0def]
    apply List.reverse_suffix.mp
    show (rstripSlash d).reverse <:+ d.reverse
    unfold rstripSlash
    rw [List.reverse_reverse]
    exact List.dropWhile_suffix _
  obtain ⟨c0, hc0⟩ : ∃ c, d.head? = some c := by
    cases d with
    | nil => exact absurd rfl hne
    | cons x xs => exact ⟨x, rfl⟩
  have hc0mem : c0 ∈ d := List.mem_of_mem_head? (by rw [hc0]; rfl)
  have hc0sl : c0 ≠ '/' := by
    intro h
    exact hsl (by rw [hc0, h])
  have hc0ws : pyWs c0 = false := hws c0 hc0mem
  have hr0ne : r0 ≠ [] := by
    intro h0
    have hrev : List.dropWhile (· == '/') d.reverse = [] := by
      have := congrArg List.reverse h0
      rw [hr0def] at this
      unfold rstripSlash at this
      rw [List.reverse_reverse] at this
      simpa using this
    have hall := List.dropWhile_eq_nil_iff.mp hrev c0 (List.mem_reverse.mpr hc0mem)
    exact hc0sl (by simpa using hall)
  have hr0head : r0.head? = some c0 := by
    rw [prefix_head?_eq hr0pre hr0ne] at hc0
    exact hc0
  have hpfxne : pfx ≠ [] := by simp [hpfxdef]
  have hpfxhead : pfx.head? = some c0 := by
    rw [hpfxdef, head?_append_left hr0ne, hr0head]
  have hr0mem : ∀ c ∈ r0, c ∈ d := fun c hc => hr0pre.sublist.subset hc
  have hpfxbs : '\\' ∉ pfx := by
    intro h
    rw [hpfxdef, List.mem_append] at h
    cases h with
    | inl h => exact hbs (hr0mem _ h)
    | inr h => simp at h
  -- the result of the inner call in each branch
  by_cases hif : pfx.isPrefixOf r
  · -- already-relocated branch: inner call returns r
    have e1 : relocate_into_dir p d = r := by
      unfold relocate_into_dir
      rw [if_neg hcond, ← hrdef, ← hr0def, ← hpfxdef, if_pos hif]
    have hpre : pfx <+: r := List.isPrefixOf_iff_prefix.mp hif
    have hrhead : r.head? = some c0 := by
      rw [prefix_head?_eq hpre hpfxne, hpfxhead]
    have hnr : norm_rel r = r := by
      apply norm_rel_eq_self
      · intro c hc
        rw [hrhead] at hc
        cases hc
        exact ⟨hc0sl, hc0ws⟩
      · exact norm_rel_no_bs p
      · intro c hc
        exact norm_rel_rev_head? hc
    rw [e1]
    unfold relocate_into_dir
    rw [if_neg hcond, ← hr0def, ← hpfxdef, hnr, if_pos hif]
  · -- prepend branch: inner call returns pfx ++ r
    have e1 : relocate_into_dir p d = pfx ++ r := by
      unfold relocate_into_dir
      rw [if_neg hcond, ← hrdef, ← hr0def, ← hpfxdef, if_neg hif]
    have hhead2 : (pfx ++ r).head? = some c0 := by
      rw [head?_append_left hpfxne, hpfxhead]
    have hnr : norm_rel (pfx ++ r) = pfx ++ r := by
      apply norm_rel_eq_self
      · intro c hc
        rw [hhead2] at hc
        cases hc
        exact ⟨hc0sl, hc0ws⟩
      · intro h
        rw [List.mem_append] at h
        cases h with
        | inl h => exact hpfxbs h
        | inr h => exact norm_rel_no_bs p h
      · intro c hc
        rw [List.reverse_append] at hc
        cases hr : r.reverse with
        | nil =>
          rw [hr] at hc
          simp only [List.nil_append] at hc
          rw [hpfxdef, List.reverse_append] at hc
          simp only [List.reverse_cons, List.reverse_nil, List.nil_append,
            List.cons_append, List.head?_cons, Option.some.injEq] at hc
          rw [← hc]
          decide
        | cons y ys =>
          rw [hr] at hc
          simp only [List.cons_append, List.head?_cons, Option.some.injEq] at hc
          have : r.reverse.head? = some c := by rw [hr, hc]; rfl
          exact norm_rel_rev_head? this
    have hif2 : pfx.isPrefixOf (pfx ++ r) = true :=
      List.isPrefixOf_iff_prefix.mpr (List.prefix_append _ _)
    rw [e1]
    unfold relocate_into_dir
    rw [if_neg hcond, ← hr0def, ← hpfxdef, hnr, if_pos hif2]

/-- C3 witness: the amended idempotence theorem applied at the concrete
target directory `updated/calculator` (the directory from the source's own
docstring example) and the raw path `src/utils.py`. -/
theorem c3_relocate_idempotent_witness :
    relocate_into_dir
        (relocate_into_dir (("src/utils.py").toList) (("updated/calculator").toList))
        (("updated/calculator").toList) =
      relocate_into_dir (("src/utils.py").toList) (("updated/calculator").toList) :=
  c3_relocate_idempotent_clean (("src/utils.py").toList) (("updated/calculator").toList)
    (by decide) (by decide) (by decide) (by decide) (by decide)

/-! ## `parse_files_json` (utils.py 37-78): the FileSetParser

The two calls to the external decoder `json.loads` are supplied as oracle
inputs: `direct` is the decode result on the fence-stripped draft (`none`
models a `JSONDecodeError`), `fallback` is the decode result on the first
balanced brace span extracted by the greedy regex (`none` models both "no
span found" and "span did not decode"; each raises, so the parse fails
either way).  An `obj` stands for a dict returned by `json.loads`, so its
keys are strings and pairwise distinct. -/

/-- A decoded JSON value as returned by `json.loads`. -/
inductive JValue where
  | str (s : PyStr)
  | num (n : Int)
  | bool (b : Bool)
  | null
  | arr (xs : List JValue)
  | obj (kvs : List (PyStr × JValue))

/-- The recognized source/config extensions of the path-like key test. -/
def srcExts : List PyStr :=
  [(".py").toList, (".md").toList, (".txt").toList,
   (".yaml").toList, (".yml").toList, (".json").toList]

/-- A key "looks like a file path": contains a separator or ends in a
recognized extension (`"/" in k or k.endswith((".py", ".md", ...))`). -/
def pathlike (k : PyStr) : Bool :=
  k.contains '/' || srcExts.any (fun e => e.isSuffixOf k)

/-- The distinct parse-failure reasons raised by `parse_files_json`. -/
inductive PErr where
  | noPathlikeKeys
  | notAnObject
  | noJsonObject
  | nonStringEntry
deriving DecidableEq

/-- Result of the parser (an explicit sum, standing for return vs raise). -/
inductive PResult where
  | ok (files : List (PyStr × PyStr))
  | err (e : PErr)
deriving DecidableEq

/-- The value-type check loop: every key and value must be a string
(keys of a decoded dict always are); collects the files map in order. -/
def toStringMap : List (PyStr × JValue) → PResult
  | [] => .ok []
  | (k, JValue.str v) :: rest =>
    match toStringMap rest with
    | .ok files => .ok ((k, v) :: files)
    | .err e => .err e
  | _ :: _ => .err .nonStringEntry

/-- `parse_files_json`: try the direct decode; on a decode error fall back
to the extracted brace span.  The path-like-key guard runs only in the
direct branch (in the source it sits inside the `try` block and the
fallback `except` handler never re-checks it). -/
def parse_files_json (direct fallback : Option JValue) : PResult :=
  match direct with
  | some (JValue.obj kvs) =>
    if (kvs.filter (fun kv => pathlike kv.1)).isEmpty then .err .noPathlikeKeys
    else toStringMap kvs
  | some _ => .err .notAnObject
  | none =>
    match fallback with
    | none => .err .noJsonObject
    | some (JValue.obj kvs) => toStringMap kvs
    | some _ => .err .notAnObject

/-! ## Claim C4 -/

/--
C4 counterexample: a draft whose direct decode fails (e.g. prose around a
brace span) but whose extracted span decodes to the object with the single
non-path-like key `a` is accepted by the fallback decode path and returned
as a files map, although no key is path-like.  The claim requires rejection
on every decode path.
-/
theorem c4_fallback_accepts_nonpathlike :
    parse_files_json none
        (some (JValue.obj [(("a").toList, JValue.str (("b").toList))])) =
      PResult.ok [(("a").toList, ("b").toList)] ∧
    pathlike (("a").toList) = false :=
  ⟨rfl, rfl⟩

/--
C4 amended: the no-path-like-keys guard applies only on the direct decode
path: a directly decoded top-level object none of whose keys is path-like
is always rejected with the distinct `noPathlikeKeys` reason, whatever the
fallback oracle would have said.  (On the balanced-brace fallback path the
guard is skipped, as the counterexample shows: there only non-object
values and non-string entries are rejected.)
-/
theorem c4_direct_rejects_nonpathlike (kvs : List (PyStr × JValue))
    (fb : Option JValue) (h : ∀ kv ∈ kvs, pathlike kv.1 = false) :
    parse_files_json (some (JValue.obj kvs)) fb = PResult.err PErr.noPathlikeKeys := by
  have hfil : kvs.filter (fun kv => pathlike kv.1) = [] :=
    List.filter_eq_nil_iff.mpr (fun kv hkv => by simp [h kv hkv])
  show (if (List.filter (fun kv => pathlike kv.1) kvs).isEmpty = true
      then PResult.err PErr.noPathlikeKeys else toStringMap kvs) =
    PResult.err PErr.noPathlikeKeys
  rw [hfil]
  rfl

/-- C4 witness: the amended rejection theorem applied to the concrete
one-entry object mapping `answer` to `42`, a plain key/value reply. -/
theorem c4_direct_rejects_witness :
    parse_files_json (some (JValue.obj [(("answer").toList, JValue.str (("42").toList))]))
        none =
      PResult.err PErr.noPathlikeKeys :=
  c4_direct_rejects_nonpathlike _ none (by
    intro kv hkv
    simp only [List.mem_singleton] at hkv
    rw [hkv]
    rfl)

/-! ## The repository tree model and `Tools.write` -/

/-- The on-disk repository tree: an association list from repository-
relative path string to file content, in creation order. -/
abbrev FS := List (PyStr × PyStr)

/-- `Path.exists()` checked at a raw repository-relative key.  The tree is
keyed on the relative-path strings the agent passes around; the source
checks existence at `(repo / rel).resolve()`, so two keys containing `.`
or `..` segments may alias one physical file.  For keys free of dot
segments (every key this pipeline produces from dot-free inputs) the raw
key and the resolved target are in bijection and this check is exact; the
physical location of a dotted key is modelled separately by
`toolsResolve`/`segsUnder`, which the package-marker analysis uses to
expose the aliasing (a marker key under `r` can resolve outside `r`). -/
def fsExists (fs : FS) (k : PyStr) : Bool := fs.any (fun kv => kv.1 == k)

/-- Read a file's content at a raw key (same keying caveat as `fsExists`). -/
def fsGet (fs : FS) (k : PyStr) : Option PyStr :=
  (fs.find? (fun kv => kv.1 == k)).map (fun kv => kv.2)

/-- `Tools.write` at a raw key: overwrite the entry if the key exists,
else create it.  The source writes to `(repo / rel).resolve()` (after the
`_safe` string check); as with `fsExists`, the raw key names the physical
file exactly when it contains no `.`/`..` segments, and `toolsResolve`
gives the resolved target of a dotted key. -/
def fsWrite (fs : FS) (k v : PyStr) : FS :=
  if fsExists fs k then fs.map (fun kv => if kv.1 == k then (k, v) else kv)
  else fs ++ [(k, v)]

theorem find?_cons_false {α : Type} {p : α → Bool} {a : α} {l : List α}
    (h : p a = false) : List.find? p (a :: l) = List.find? p l := by
  simp [List.find?_cons, h]

theorem find?_cons_true {α : Type} {p : α → Bool} {a : α} {l : List α}
    (h : p a = true) : List.find? p (a :: l) = some a := by
  simp [List.find?_cons, h]

theorem find?_map_update {fs : FS} {k v : PyStr} (h : fsExists fs k = true) :
    fsGet (fs.map (fun kv => if kv.1 == k then (k, v) else kv)) k = some v := by
  induction fs with
  | nil => simp [fsExists] at h
  | cons kv0 fs ih =>
    by_cases hk : (kv0.1 == k) = true
    · unfold fsGet
      rw [List.map_cons, if_pos hk, find?_cons_true (a := (k, v)) (by simp)]
      rfl
    · unfold fsGet at ih ⊢
      rw [List.map_cons, if_neg hk,
        find?_cons_false (a := kv0) (by simpa using hk)]
      apply ih
      unfold fsExists at h ⊢
      rw [List.any_cons] at h
      simpa [hk] using h

theorem fsGet_fsWrite_self (fs : FS) (k v : PyStr) :
    fsGet (fsWrite fs k v) k = some v := by
  unfold fsWrite
  by_cases h : fsExists fs k
  · rw [if_pos h]
    exact find?_map_update h
  · rw [if_neg h]
    unfold fsGet
    rw [List.find?_append]
    have hnone : fs.find? (fun kv => kv.1 == k) = none := by
      rw [List.find?_eq_none]
      intro kv hkv hbeq
      exact h (List.any_eq_true.mpr ⟨kv, hkv, hbeq⟩)
    rw [hnone]
    simp [List.find?]

theorem find?_map_update_other {k k' v : PyStr} (h : k' ≠ k) (fs : FS) :
    List.find? (fun kv => kv.1 == k')
        (fs.map (fun kv => if kv.1 == k then (k, v) else kv)) =
      List.find? (fun kv => kv.1 == k') fs := by
  induction fs with
  | nil => rfl
  | cons kv0 fs ih =>
    rw [List.map_cons]
    by_cases hk : (kv0.1 == k) = true
    · rw [if_pos hk]
      have h1 : ((k, v).1 == k') = false := by
        simp only [beq_eq_false_iff_ne, ne_eq]
        exact fun e => h e.symm
      have h2 : (kv0.1 == k') = false := by
        rw [beq_iff_eq] at hk
        simp only [beq_eq_false_iff_ne, ne_eq, hk]
        exact fun e => h e.symm
      rw [find?_cons_false (a := (k, v)) h1, find?_cons_false (a := kv0) h2, ih]
    · rw [if_neg hk]
      by_cases hk' : (kv0.1 == k') = true
      · rw [find?_cons_true (a := kv0) hk', find?_cons_true (a := kv0) hk']
      · rw [find?_cons_false (a := kv0) (by simpa using hk'),
          find?_cons_false (a := kv0) (by simpa using hk'), ih]

theorem fsGet_fsWrite_ne (fs : FS) {k k' : PyStr} (v : PyStr) (h : k' ≠ k) :
    fsGet (fsWrite fs k v) k' = fsGet fs k' := by
  unfold fsWrite
  by_cases he : fsExists fs k
  · rw [if_pos he]
    unfold fsGet
    rw [find?_map_update_other h]
  · rw [if_neg he]
    unfold fsGet
    rw [List.find?_append]
    have h1 : [(k, v)].find? (fun kv => kv.1 == k') = none := by
      rw [List.find?_eq_none]
      intro kv hkv
      simp only [List.mem_singleton] at hkv
      rw [hkv]
      simp only [beq_iff_eq]
      exact fun e => h e.symm
    rw [h1]
    cases hf : fs.find? (fun kv => kv.1 == k') <;> rfl

theorem fsExists_of_fsGet {fs : FS} {k v : PyStr} (h : fsGet fs k = some v) :
    fsExists fs k = true := by
  unfold fsGet at h
  cases hf : fs.find? (fun kv => kv.1 == k) with
  | none => rw [hf] at h; simp at h
  | some kv =>
    have hmem := List.mem_of_find?_eq_some hf
    have hp := List.find?_some hf
    exact List.any_eq_true.mpr ⟨kv, hmem, hp⟩

theorem fsExists_fsWrite_self (fs : FS) (k v : PyStr) :
    fsExists (fsWrite fs k v) k = true := by
  have := fsGet_fsWrite_self fs k v
  exact fsExists_of_fsGet this

theorem fsExists_fsWrite_mono (fs : FS) {k k' : PyStr} (v : PyStr)
    (h : fsExists fs k' = true) : fsExists (fsWrite fs k v) k' = true := by
  by_cases he : k' = k
  · rw [he]; exact fsExists_fsWrite_self fs k v
  · obtain ⟨kv, hmem, hp⟩ := List.any_eq_true.mp h
    have : fsGet fs k' ≠ none := by
      unfold fsGet
      intro hc
      rw [Option.map_eq_none'] at hc  -- hmm name check
      rw [List.find?_eq_none] at hc
      exact hc kv hmem hp
    cases hg : fsGet fs k' with
    | none => exact absurd hg this
    | some w =>
      have := fsGet_fsWrite_ne fs v he
      rw [hg] at this
      exact fsExists_of_fsGet this

/-! ## The multi-file write loop of `Agent.create_program` (agent.py 249-257) -/

/-- State threaded through the write loop: the tree, the list of written
paths, and the `model_provided_requirements_after_relocate` flag. -/
structure LoopSt where
  fs : FS
  written : List PyStr
  modelReq : Bool

/-- The body of `for rel_path, content in files_map.items(): ...`:
relocate under the module directory, flag a hit on the auto requirements
path, normalize the content (`content.rstrip() + "\n"`), write, record. -/
def writeFilesGo (d q : PyStr) : FS → List PyStr → Bool → List (PyStr × PyStr) → LoopSt
  | fs, w, b, [] => ⟨fs, w, b⟩
  | fs, w, b, kv :: rest =>
    writeFilesGo d q
      (fsWrite fs (relocate_into_dir kv.1 d) (pyRStripWs kv.2 ++ ['\n']))
      (w ++ [relocate_into_dir kv.1 d])
      (b || (relocate_into_dir kv.1 d == q))
      rest

/-- The whole write loop, from an initial tree. -/
def writeFilesLoop (fs : FS) (files : List (PyStr × PyStr)) (d q : PyStr) : LoopSt :=
  writeFilesGo d q fs [] false files

/-- The string payload of a decoded JSON value (total projection). -/
def strOrNil : JValue → PyStr
  | .str s => s
  | _ => []

theorem toStringMap_all_str {kvs : List (PyStr × JValue)}
    (h : ∀ kv ∈ kvs, ∃ s, kv.2 = JValue.str s) :
    toStringMap kvs = PResult.ok (kvs.map (fun kv => (kv.1, strOrNil kv.2))) := by
  induction kvs with
  | nil => rfl
  | cons kv rest ih =>
    obtain ⟨s, hs⟩ := h kv (by simp)
    obtain ⟨k0, v0⟩ := kv
    simp only at hs
    subst hs
    have ih' := ih (fun kv hkv => h kv (by simp [hkv]))
    show (match toStringMap rest with
          | .ok files => PResult.ok ((k0, s) :: files)
          | .err e => PResult.err e) = _
    rw [ih']
    rfl

theorem writeFilesGo_written (d q : PyStr) (files : List (PyStr × PyStr)) :
    ∀ (fs : FS) (w : List PyStr) (b : Bool),
      (writeFilesGo d q fs w b files).written =
        w ++ files.map (fun kv => relocate_into_dir kv.1 d) := by
  induction files with
  | nil => intro fs w b; simp [writeFilesGo]
  | cons kv rest ih =>
    intro fs w b
    rw [writeFilesGo, ih]
    simp

theorem writeFilesGo_get_not_mem (d q : PyStr) (files : List (PyStr × PyStr)) :
    ∀ (fs : FS) (w : List PyStr) (b : Bool) (k : PyStr),
      k ∉ files.map (fun kv => relocate_into_dir kv.1 d) →
      fsGet (writeFilesGo d q fs w b files).fs k = fsGet fs k := by
  induction files with
  | nil => intro fs w b k _; rfl
  | cons kv rest ih =>
    intro fs w b k hk
    rw [List.map_cons, List.mem_cons] at hk
    push_neg at hk
    rw [writeFilesGo, ih _ _ _ _ hk.2, fsGet_fsWrite_ne _ _ hk.1]

theorem writeFilesGo_get (d q : PyStr) (files : List (PyStr × PyStr)) :
    ∀ (fs : FS) (w : List PyStr) (b : Bool),
      (files.map (fun kv => relocate_into_dir kv.1 d)).Nodup →
      ∀ kv ∈ files,
        fsGet (writeFilesGo d q fs w b files).fs (relocate_into_dir kv.1 d) =
          some (pyRStripWs kv.2 ++ ['\n']) := by
  induction files with
  | nil => intro fs w b _ kv hkv; simp at hkv
  | cons kv0 rest ih =>
    intro fs w b hnod kv hkv
    rw [List.map_cons, List.nodup_cons] at hnod
    rw [List.mem_cons] at hkv
    cases hkv with
    | inl h =>
      subst h
      rw [writeFilesGo, writeFilesGo_get_not_mem d q rest _ _ _ _ hnod.1]
      exact fsGet_fsWrite_self _ _ _
    | inr h =>
      rw [writeFilesGo]
      exact ih _ _ _ hnod.2 kv h

/-! ## Claim C9 -/

/--
C9: for every decoded JSON-object draft whose values are all strings and
which has at least two path-like keys, `parse_files_json` succeeds and
returns exactly the draft's keys with their string values, and the write
loop of `create_program` persists, for each entry, the draft value with
trailing whitespace trimmed and exactly one trailing newline appended, at
the path relocated under the entry module's directory (when the relocated
targets are distinct, reading any written file back yields exactly that
normalized content).
-/
theorem c9_parse_and_normalize (kvs : List (PyStr × JValue)) (fb : Option JValue)
    (fs : FS) (d q : PyStr)
    (hstr : ∀ kv ∈ kvs, ∃ s, kv.2 = JValue.str s)
    (hpl : 2 ≤ (kvs.filter (fun kv => pathlike kv.1)).length) :
    parse_files_json (some (JValue.obj kvs)) fb =
        PResult.ok (kvs.map (fun kv => (kv.1, strOrNil kv.2))) ∧
      (kvs.map (fun kv => (kv.1, strOrNil kv.2))).map Prod.fst = kvs.map Prod.fst ∧
      (writeFilesLoop fs (kvs.map (fun kv => (kv.1, strOrNil kv.2))) d q).written =
        kvs.map (fun kv => relocate_into_dir kv.1 d) ∧
      ((kvs.map (fun kv => relocate_into_dir kv.1 d)).Nodup →
        ∀ kv ∈ kvs,
          fsGet (writeFilesLoop fs (kvs.map (fun kv => (kv.1, strOrNil kv.2))) d q).fs
              (relocate_into_dir kv.1 d) =
            some (pyRStripWs (strOrNil kv.2) ++ ['\n'])) := by
  refine ⟨?_, ?_, ?_, ?_⟩
  · have hne : ¬(kvs.filter (fun kv => pathlike kv.1)).isEmpty = true := by
      intro hc
      rw [List.isEmpty_iff] at hc
      rw [hc] at hpl
      simp at hpl
    show (if (List.filter (fun kv => pathlike kv.1) kvs).isEmpty = true
        then PResult.err PErr.noPathlikeKeys else toStringMap kvs) = _
    rw [if_neg hne]
    exact toStringMap_all_str hstr
  · rw [List.map_map]
    rfl
  · unfold writeFilesLoop
    rw [writeFilesGo_written, List.map_map]
    rfl
  · intro hnod kv hkv
    have hnod2 : ((kvs.map (fun kv => (kv.1, strOrNil kv.2))).map
        (fun kv => relocate_into_dir kv.1 d)).Nodup := by
      rw [List.map_map]
      exact hnod
    have := writeFilesGo_get d q (kvs.map (fun kv => (kv.1, strOrNil kv.2))) fs [] false
      hnod2 (kv.1, strOrNil kv.2) (List.mem_map.mpr ⟨kv, hkv, rfl⟩)
    exact this

/-- C9 witness draft: two path-like keys with string values, one value
carrying trailing blanks and one trailing newlines. -/
def c9Kvs : List (PyStr × JValue) :=
  [(("app.py").toList, JValue.str (("x = 1  ").toList)),
   (("docs/readme.md").toList, JValue.str (("hi").toList ++ ['\n', '\n']))]

/-- C9 witness: the parse-and-normalize theorem applied at the concrete
two-file draft, entry directory `proj`. -/
theorem c9_parse_witness :
    parse_files_json (some (JValue.obj c9Kvs)) none =
        PResult.ok (c9Kvs.map (fun kv => (kv.1, strOrNil kv.2))) ∧
      (c9Kvs.map (fun kv => (kv.1, strOrNil kv.2))).map Prod.fst = c9Kvs.map Prod.fst ∧
      (writeFilesLoop [] (c9Kvs.map (fun kv => (kv.1, strOrNil kv.2))) (("proj").toList)
          (("proj/requirements.txt").toList)).written =
        c9Kvs.map (fun kv => relocate_into_dir kv.1 (("proj").toList)) ∧
      ((c9Kvs.map (fun kv => relocate_into_dir kv.1 (("proj").toList))).Nodup →
        ∀ kv ∈ c9Kvs,
          fsGet (writeFilesLoop [] (c9Kvs.map (fun kv => (kv.1, strOrNil kv.2)))
              (("proj").toList) (("proj/requirements.txt").toList)).fs
              (relocate_into_dir kv.1 (("proj").toList)) =
            some (pyRStripWs (strOrNil kv.2) ++ ['\n'])) :=
  c9_parse_and_normalize c9Kvs none [] (("proj").toList) (("proj/requirements.txt").toList)
    (by
      intro kv hkv
      simp only [c9Kvs, List.mem_cons, List.not_mem_nil, or_false] at hkv
      rcases hkv with rfl | rfl
      · exact ⟨_, rfl⟩
      · exact ⟨_, rfl⟩)
    (by decide)

/-! ## `Agent._ensure_init_chain_for_path` (agent.py 71-110) -/

/-- The package marker filename. -/
def initPy : PyStr := ("__init__.py").toList

/-- `(accum / "__init__.py").as_posix()` for the directory whose segment
chain is `accum`. -/
def markerKey (accum : List Seg) : PyStr := List.intercalate ['/'] (accum ++ [initPy])

/-- Create an empty marker only when none exists (never overwrite):
`if not init_abs.exists(): self.tools.write(init_rel, "")`. -/
def writeIfAbsent (fs : FS) (k : PyStr) : FS :=
  if fsExists fs k then fs else fsWrite fs k []

/-- The directory walk: create the marker at the accumulated level, then
descend one directory; after the loop, the final marker is the file's
immediate parent directory. -/
def initChainGo (fs : FS) (accum : List Seg) : List Seg → FS
  | [] => writeIfAbsent fs (markerKey accum)
  | dirPart :: rest =>
    initChainGo (writeIfAbsent fs (markerKey accum)) (accum ++ [dirPart]) rest

/-- `Agent._ensure_init_chain_for_path`: no-op unless the normalized path
ends in `.py`, a package root is given (not empty, not `.`), and the
path's first segment equals the package root; otherwise walk from the root
segment down to the file's parent, creating missing markers. -/
def ensure_init_chain_for_path (fs : FS) (rel_py_path : PyStr)
    (package_root : Option PyStr) : FS :=
  if ¬((".py").toList.isSuffixOf (norm_rel rel_py_path) = true) then fs
  else
    match package_root with
    | none => fs
    | some root =>
      if root = [] ∨ root = ['.'] then fs
      else
        match relSegs (norm_rel rel_py_path) with
        | [] => fs
        | p0 :: rest => if p0 ≠ root then fs else initChainGo fs [p0] rest.dropLast

theorem writeIfAbsent_preserve {fs : FS} {k v : PyStr} (m : PyStr)
    (h : fsGet fs k = some v) : fsGet (writeIfAbsent fs m) k = some v := by
  unfold writeIfAbsent
  by_cases he : fsExists fs m
  · rw [if_pos he]; exact h
  · rw [if_neg he]
    by_cases hk : k = m
    · subst hk
      exact absurd (fsExists_of_fsGet h) he
    · rw [fsGet_fsWrite_ne _ _ hk]; exact h

theorem writeIfAbsent_exists_self (fs : FS) (k : PyStr) :
    fsExists (writeIfAbsent fs k) k = true := by
  unfold writeIfAbsent
  by_cases he : fsExists fs k
  · rw [if_pos he]; exact he
  · rw [if_neg he]; exact fsExists_fsWrite_self fs k []

theorem writeIfAbsent_mono {fs : FS} {k' : PyStr} (k : PyStr)
    (h : fsExists fs k' = true) : fsExists (writeIfAbsent fs k) k' = true := by
  unfold writeIfAbsent
  by_cases he : fsExists fs k
  · rw [if_pos he]; exact h
  · rw [if_neg he]; exact fsExists_fsWrite_mono fs [] h

theorem fsExists_fsWrite_cases {fs : FS} {k m v : PyStr}
    (h : fsExists (fsWrite fs m v) k = true) :
    fsExists fs k = true ∨ k = m := by
  unfold fsWrite at h
  by_cases he : fsExists fs m
  · rw [if_pos he] at h
    obtain ⟨kv, hmem, hp⟩ := List.any_eq_true.mp h
    rw [List.mem_map] at hmem
    obtain ⟨kv0, hkv0, hup⟩ := hmem
    by_cases hk : (kv0.1 == m) = true
    · rw [if_pos hk] at hup
      right
      rw [← hup] at hp
      rw [beq_iff_eq] at hp
      exact hp.symm
    · rw [if_neg hk] at hup
      left
      exact List.any_eq_true.mpr ⟨kv0, hkv0, by rw [hup]; exact hp⟩
  · rw [if_neg he] at h
    unfold fsExists at h
    rw [List.any_append] at h
    rcases Bool.or_eq_true_iff.mp h with h1 | h1
    · left; exact h1
    · right
      simp only [List.any_cons, List.any_nil, Bool.or_false, beq_iff_eq] at h1
      exact h1.symm

theorem writeIfAbsent_exists_cases {fs : FS} {k m : PyStr}
    (h : fsExists (writeIfAbsent fs m) k = true) :
    fsExists fs k = true ∨ k = m := by
  unfold writeIfAbsent at h
  by_cases he : fsExists fs m
  · rw [if_pos he] at h; exact Or.inl h
  · rw [if_neg he] at h; exact fsExists_fsWrite_cases h

theorem initChainGo_preserve (rest : List Seg) :
    ∀ (fs : FS) (accum : List Seg) (k v : PyStr),
      fsGet fs k = some v → fsGet (initChainGo fs accum rest) k = some v := by
  induction rest with
  | nil =>
    intro fs accum k v h
    exact writeIfAbsent_preserve _ h
  | cons d rest ih =>
    intro fs accum k v h
    exact ih _ _ _ _ (writeIfAbsent_preserve _ h)

theorem initChainGo_mono (rest : List Seg) :
    ∀ (fs : FS) (accum : List Seg) (k : PyStr),
      fsExists fs k = true → fsExists (initChainGo fs accum rest) k = true := by
  induction rest with
  | nil => intro fs accum k h; exact writeIfAbsent_mono _ h
  | cons d rest ih =>
    intro fs accum k h
    exact ih _ _ _ (writeIfAbsent_mono _ h)

theorem initChainGo_marker (rest : List Seg) :
    ∀ (fs : FS) (accum : List Seg) (j : Nat), j ≤ rest.length →
      fsExists (initChainGo fs accum rest) (markerKey (accum ++ rest.take j)) = true := by
  induction rest with
  | nil =>
    intro fs accum j hj
    have hj0 : j = 0 := Nat.le_zero.mp hj
    subst hj0
    simp only [List.take_nil, List.append_nil]
    exact writeIfAbsent_exists_self fs (markerKey accum)
  | cons d rest ih =>
    intro fs accum j hj
    cases j with
    | zero =>
      simp only [List.take_zero, List.append_nil]
      exact initChainGo_mono rest _ _ _ (writeIfAbsent_exists_self fs (markerKey accum))
    | succ j' =>
      rw [List.take_succ_cons]
      have e : accum ++ d :: rest.take j' = (accum ++ [d]) ++ rest.take j' := by simp
      rw [e, initChainGo]
      exact ih _ _ j' (Nat.le_of_succ_le_succ hj)

theorem initChainGo_new_keys (rest : List Seg) :
    ∀ (fs : FS) (accum : List Seg) (k : PyStr),
      fsExists (initChainGo fs accum rest) k = true →
      fsExists fs k = true ∨
        ∃ j, j ≤ rest.length ∧ k = markerKey (accum ++ rest.take j) := by
  induction rest with
  | nil =>
    intro fs accum k h
    rcases writeIfAbsent_exists_cases h with h1 | h1
    · exact Or.inl h1
    · exact Or.inr ⟨0, Nat.le_refl 0, by simpa using h1⟩
  | cons d rest ih =>
    intro fs accum k h
    rcases ih _ _ _ h with h1 | ⟨j, hj, hk⟩
    · rcases writeIfAbsent_exists_cases h1 with h2 | h2
      · exact Or.inl h2
      · exact Or.inr ⟨0, Nat.zero_le _, by simpa using h2⟩
    · refine Or.inr ⟨j + 1, Nat.succ_le_succ hj, ?_⟩
      rw [hk, List.take_succ_cons]
      simp

theorem intercalate_cons_ne_nil (a : Seg) (xs : List Seg) (h : xs ≠ []) :
    List.intercalate ['/'] (a :: xs) = a ++ ['/'] ++ List.intercalate ['/'] xs := by
  cases xs with
  | nil => exact absurd rfl h
  | cons y t => simp [List.intercalate, List.intersperse]

theorem markerKey_cons (a : Seg) (l : List Seg) :
    markerKey (a :: l) = a ++ '/' :: markerKey l := by
  unfold markerKey
  rw [List.cons_append, intercalate_cons_ne_nil a (l ++ [initPy]) (by simp)]
  simp

theorem markerKey_cons_pfx (a : Seg) (l : List Seg) :
    (a ++ ['/']).isPrefixOf (markerKey (a :: l)) = true := by
  rw [markerKey_cons]
  apply List.isPrefixOf_iff_prefix.mpr
  have e : a ++ '/' :: markerKey l = (a ++ ['/']) ++ markerKey l := by simp
  rw [e]
  exact List.prefix_append _ _

theorem take_dropLast_eq {α : Type} (l : List α) (j : Nat) (h : j ≤ l.length - 1) :
    l.dropLast.take j = l.take j := by
  rw [List.dropLast_eq_take, List.take_take]
  congr 1
  omega

theorem relSegs_head_ok {s : PyStr} {r : Seg} {rest : List Seg}
    (h : relSegs s = r :: rest) : ¬(r = [] ∨ r = ['.']) := by
  have hmem : r ∈ relSegs s := by rw [h]; simp
  unfold relSegs at hmem
  rw [List.mem_filter] at hmem
  have h2 := hmem.2
  intro hor
  cases hor with
  | inl e => subst e; simp at h2
  | inr e => subst e; simp at h2

/-! ## `Agent._enforce_same_folder_imports` (agent.py 112-178)

The four `re.sub` patterns are anchored at line starts (`^`, `MULTILINE`),
so the rewrite is modelled per line: the file text is split on `\n`, each
line is matched against the four shapes in the source's order, and the
lines are re-joined.  `\s` is the whitespace class, `\w` the ASCII word
class, and each greedy quantifier in the patterns is followed by a token
its class cannot start, so maximal munch coincides with regex matching
(for a qualification prefix without whitespace, the only case the
theorems below speak about). -/

/-- `\w`: ASCII word characters. -/
def wChar (c : Char) : Bool := c.isAlphanum || c = '_'

/-- `[a-zA-Z_]`: the leading character of a captured identifier. -/
def identStart (c : Char) : Bool := c.isAlpha || c = '_'

/-- The literal `from`. -/
def kwFrom : PyStr := ['f', 'r', 'o', 'm']

/-- The literal `import`. -/
def kwImport : PyStr := ['i', 'm', 'p', 'o', 'r', 't']

/-- The literal `as`. -/
def kwAs : PyStr := ['a', 's']

/-- Consume the exact literal `lit`, returning the remainder. -/
def munchLit (lit s : PyStr) : Option PyStr :=
  if lit.isPrefixOf s then some (s.drop lit.length) else none

/-- Consume `\s+` (one or more whitespace), returning the remainder. -/
def munchWs1 (s : PyStr) : Option PyStr :=
  match s with
  | [] => none
  | c :: cs => if pyWs c then some (cs.dropWhile pyWs) else none

/-- Consume a maximal identifier `[a-zA-Z_]\w*`, returning it and the
remainder. -/
def munchIdent (s : PyStr) : Option (PyStr × PyStr) :=
  match s with
  | [] => none
  | c :: cs =>
    if identStart c then some (c :: cs.takeWhile wChar, cs.dropWhile wChar)
    else none

/-- Pattern 1, `^from\s+{P}\.([a-zA-Z_]\w*)\s+import\s+`: returns the
captured identifier and the text after the match. -/
def parseFromDotted (pfx line : PyStr) : Option (PyStr × PyStr) :=
  (munchLit kwFrom line).bind fun s1 =>
  (munchWs1 s1).bind fun s2 =>
  (munchLit (pfx ++ ['.']) s2).bind fun s3 =>
  (munchIdent s3).bind fun is4 =>
  (munchWs1 is4.2).bind fun s5 =>
  (munchLit kwImport s5).bind fun s6 =>
  (munchWs1 s6).bind fun s7 =>
  some (is4.1, s7)

/-- Pattern 2, `^import\s+{P}\.([a-zA-Z_]\w*)\s+as\s+`. -/
def parseDottedAs (pfx line : PyStr) : Option (PyStr × PyStr) :=
  (munchLit kwImport line).bind fun s1 =>
  (munchWs1 s1).bind fun s2 =>
  (munchLit (pfx ++ ['.']) s2).bind fun s3 =>
  (munchIdent s3).bind fun is4 =>
  (munchWs1 is4.2).bind fun s5 =>
  (munchLit kwAs s5).bind fun s6 =>
  (munchWs1 s6).bind fun s7 =>
  some (is4.1, s7)

/-- Pattern 3, `^import\s+{P}\.([a-zA-Z_]\w*)\s*$`. -/
def parseDottedBare (pfx line : PyStr) : Option PyStr :=
  (munchLit kwImport line).bind fun s1 =>
  (munchWs1 s1).bind fun s2 =>
  (munchLit (pfx ++ ['.']) s2).bind fun s3 =>
  (munchIdent s3).bind fun is4 =>
  if is4.2.all pyWs then some is4.1 else none

/-- Pattern 4, `^from\s+{P}\s+import\s+([a-zA-Z_]\w*)\s*$`. -/
def parseFromPkg (pfx line : PyStr) : Option PyStr :=
  (munchLit kwFrom line).bind fun s1 =>
  (munchWs1 s1).bind fun s2 =>
  (munchLit pfx s2).bind fun s3 =>
  (munchWs1 s3).bind fun s4 =>
  (munchLit kwImport s4).bind fun s5 =>
  (munchWs1 s5).bind fun s6 =>
  (munchIdent s6).bind fun is7 =>
  if is7.2.all pyWs then some is7.1 else none

/-- Substitution 1: `from {P}.x import ...` → `from x import ...`. -/
def subFromDotted (pfx line : PyStr) : PyStr :=
  match parseFromDotted pfx line with
  | some (i, rest) => kwFrom ++ [' '] ++ i ++ [' '] ++ kwImport ++ [' '] ++ rest
  | none => line

/-- Substitution 2: `import {P}.x as ...` → `import x as ...`. -/
def subDottedAs (pfx line : PyStr) : PyStr :=
  match parseDottedAs pfx line with
  | some (i, rest) => kwImport ++ [' '] ++ i ++ [' '] ++ kwAs ++ [' '] ++ rest
  | none => line

/-- Substitution 3: `import {P}.x` → `import x`. -/
def subDottedBare (pfx line : PyStr) : PyStr :=
  match parseDottedBare pfx line with
  | some i => kwImport ++ [' '] ++ i
  | none => line

/-- Substitution 4: `from {P} import x` → `import x`. -/
def subFromPkg (pfx line : PyStr) : PyStr :=
  match parseFromPkg pfx line with
  | some i => kwImport ++ [' '] ++ i
  | none => line

/-- The four substitutions applied to one line, in the source's order. -/
def rewriteLine (pfx line : PyStr) : PyStr :=
  subFromPkg pfx (subDottedBare pfx (subDottedAs pfx (subFromDotted pfx line)))

/-- The whole-file rewrite: per line, joined back with `\n`. -/
def rewriteText (pfx text : PyStr) : PyStr :=
  List.intercalate ['\n'] ((splitOnChar '\n' text).map (rewriteLine pfx))

/-- `module_dir.replace("/", ".")`: the dotted qualification prefix. -/
def dottedPfx (s : PyStr) : PyStr := s.map (fun c => if c = '/' then '.' else c)

/-- `Agent._enforce_same_folder_imports`: normalize the module directory,
no-op when it is empty/`.` or absent from the tree, else rewrite every
`.py` file strictly under it (contents only; on-disk iteration modelled in
tree order). -/
def enforce_same_folder_imports (fs : FS) (module_dir : PyStr) : FS :=
  if stripSlash (norm_rel module_dir) = [] ∨ stripSlash (norm_rel module_dir) = ['.'] then fs
  else if ¬(fs.any (fun kv =>
      ((stripSlash (norm_rel module_dir)) ++ ['/']).isPrefixOf kv.1 ||
        kv.1 == stripSlash (norm_rel module_dir)) = true) then fs
  else
    fs.map (fun kv =>
      if ((stripSlash (norm_rel module_dir)) ++ ['/']).isPrefixOf kv.1 &&
          (".py").toList.isSuffixOf kv.1 then
        (kv.1, rewriteText (dottedPfx (stripSlash (norm_rel module_dir))) kv.2)
      else kv)

/-- Whether a line still matches one of the four recognized shapes. -/
def matchesAnyImportShape (pfx line : PyStr) : Bool :=
  (parseFromDotted pfx line).isSome || (parseDottedAs pfx line).isSome ||
    (parseDottedBare pfx line).isSome || (parseFromPkg pfx line).isSome

/-- Modelled from the spec's words, for the refutation only: a top-level import
statement "qualified by the project's dotted root prefix" — the
line starts with `from <pfx>.`, `import <pfx>.`, or `from <pfx> import `. -/
def spec_qualifiedImport (pfx line : PyStr) : Bool :=
  (kwFrom ++ [' '] ++ pfx ++ ['.']).isPrefixOf line ||
    (kwImport ++ [' '] ++ pfx ++ ['.']).isPrefixOf line ||
    (kwFrom ++ [' '] ++ pfx ++ [' '] ++ kwImport ++ [' ']).isPrefixOf line

/-! Character-class facts for the rewriter proofs. -/

theorem pyWs_cases {c : Char} (h : pyWs c = true) :
    c = ' ' ∨ c = '\t' ∨ c = '\r' ∨ c = '\n' := by
  unfold pyWs Char.isWhitespace at h
  have h2 : ((c = ' ' ∨ c = '\t') ∨ c = '\r') ∨ c = '\n' := by simpa using h
  tauto

theorem wChar_not_ws {c : Char} (h : wChar c = true) : pyWs c = false := by
  cases hpw : pyWs c with
  | false => rfl
  | true =>
    exfalso
    rcases pyWs_cases hpw with rfl | rfl | rfl | rfl <;> exact absurd h (by decide)

theorem wChar_not_dot {c : Char} (h : wChar c = true) : c ≠ '.' := by
  intro e
  subst e
  exact absurd h (by decide)

theorem identStart_wChar {c : Char} (h : identStart c = true) : wChar c = true := by
  unfold identStart at h
  unfold wChar Char.isAlphanum
  rcases Bool.or_eq_true_iff.mp h with h1 | h1
  · rw [h1]
    rfl
  · rw [h1]
    simp

theorem munchIdent_facts {s i t : PyStr} (h : munchIdent s = some (i, t)) :
    i ≠ [] ∧ ∀ c ∈ i, wChar c = true := by
  unfold munchIdent at h
  cases s with
  | nil => exact absurd h (by simp)
  | cons c cs =>
    change (if identStart c = true then
        some (c :: cs.takeWhile wChar, cs.dropWhile wChar) else none) = some (i, t) at h
    by_cases hc : identStart c = true
    · rw [if_pos hc] at h
      simp only [Option.some.injEq, Prod.mk.injEq] at h
      refine ⟨by rw [← h.1]; simp, ?_⟩
      intro x hx
      rw [← h.1] at hx
      rw [List.mem_cons] at hx
      rcases hx with rfl | hx
      · exact identStart_wChar hc
      · exact List.mem_takeWhile_imp hx
    · rw [if_neg hc] at h
      exact absurd h (by simp)

/-- Key incompatibility: a captured identifier followed by nothing or by a
space never extends to `pfx` + `.` when `pfx` has no whitespace. -/
theorem no_pfxdot_isPfx {pfx i tail : PyStr} (hi : i ≠ [])
    (hiw : ∀ c ∈ i, wChar c = true)
    (htail : tail = [] ∨ tail.head? = some ' ')
    (hpws : ∀ c ∈ pfx, pyWs c = false) :
    (pfx ++ ['.']).isPrefixOf (i ++ tail) = false := by
  rw [Bool.eq_false_iff]
  intro hc
  have hpre := List.isPrefixOf_iff_prefix.mp hc
  have hlen := hpre.length_le
  rw [List.length_append, List.length_append, List.length_singleton] at hlen
  by_cases hcase : pfx.length + 1 ≤ i.length
  · -- the '.' lands inside the identifier
    have hn : pfx.length < (pfx ++ ['.']).length := by
      rw [List.length_append, List.length_singleton]
      omega
    have he := hpre.getElem hn
    have h1 : (pfx ++ ['.'])[pfx.length] = '.' := by
      rw [List.getElem_append_right (Nat.le_refl _)]
      simp
    have hlt : pfx.length < i.length := by omega
    have hlt2 : pfx.length < (i ++ tail).length := by
      rw [List.length_append]; omega
    have h2 : (i ++ tail)[pfx.length] = i[pfx.length] := List.getElem_append_left hlt
    have hmem : i[pfx.length] ∈ i := List.getElem_mem hlt
    rw [h1, h2] at he
    exact wChar_not_dot (hiw _ hmem) he.symm
  · -- the prefix reaches past the identifier, hitting the space (or nothing)
    cases tail with
    | nil =>
      simp only [List.length_nil] at hlen
      omega
    | cons x xs =>
      have hxsp : x = ' ' := by
        rcases htail with ht | ht
        · exact absurd ht (by simp)
        · simpa using ht
      subst hxsp
      have hn : i.length < (pfx ++ ['.']).length := by
        rw [List.length_append, List.length_singleton]
        omega
      have he := hpre.getElem hn
      have hlen2 : i.length < (i ++ ' ' :: xs).length := by
        rw [List.length_append]; simp
      have h2 : (i ++ ' ' :: xs)[i.length] = ' ' := by
        rw [List.getElem_append_right (Nat.le_refl _)]
        simp
      rw [h2] at he
      by_cases hcase2 : i.length < pfx.length
      · have h1 : (pfx ++ ['.'])[i.length] = pfx[i.length] :=
          List.getElem_append_left hcase2
        rw [h1] at he
        have hmem : pfx[i.length] ∈ pfx := List.getElem_mem hcase2
        have hws := hpws _ hmem
        rw [he] at hws
        exact absurd hws (by decide)
      · have heq : i.length = pfx.length := by omega
        have h1 : (pfx ++ ['.'])[i.length] = '.' := by
          rw [List.getElem_append_right (by omega)]
          simp [heq]
        rw [h1] at he
        exact absurd he (by decide)

/-! Evaluation lemmas for the munch steps on the substitution outputs. -/

theorem isPrefixOf_false_of_head {a b : Char} {as bs : PyStr} (h : a ≠ b) :
    (a :: as).isPrefixOf (b :: bs) = false := by
  rw [Bool.eq_false_iff]
  intro hc
  obtain ⟨t, ht⟩ := List.isPrefixOf_iff_prefix.mp hc
  have hh := congrArg List.head? ht
  simp only [List.cons_append, List.head?_cons, Option.some.injEq] at hh
  exact h hh

theorem munchLit_head_ne {a b : Char} {as bs : PyStr} (h : a ≠ b) :
    munchLit (a :: as) (b :: bs) = none := by
  unfold munchLit
  rw [if_neg (fun hc => by
    rw [isPrefixOf_false_of_head h] at hc
    exact Bool.false_ne_true hc)]

theorem munchLit_append (lit X : PyStr) : munchLit lit (lit ++ X) = some X := by
  unfold munchLit
  rw [if_pos (List.isPrefixOf_iff_prefix.mpr (List.prefix_append _ _))]
  rw [List.drop_left]

theorem munchWs1_space {X : PyStr} (hX : ∀ c, X.head? = some c → pyWs c = false) :
    munchWs1 (' ' :: X) = some X := by
  show (if pyWs ' ' then some (X.dropWhile pyWs) else none) = some X
  rw [if_pos (by decide), dropWhile_eq_self_of_head? hX]

theorem munchLit_pfxdot_none {pfx i tail : PyStr} (hi : i ≠ [])
    (hiw : ∀ c ∈ i, wChar c = true)
    (htail : tail = [] ∨ tail.head? = some ' ')
    (hpws : ∀ c ∈ pfx, pyWs c = false) :
    munchLit (pfx ++ ['.']) (i ++ tail) = none := by
  unfold munchLit
  rw [if_neg (fun hc => by
    rw [no_pfxdot_isPfx hi hiw htail hpws] at hc
    exact Bool.false_ne_true hc)]

theorem head?_ident_append {i tail : PyStr} (hi : i ≠ [])
    (hiw : ∀ c ∈ i, wChar c = true) :
    ∀ c, (i ++ tail).head? = some c → pyWs c = false := by
  intro c hc
  rw [head?_append_left hi] at hc
  exact wChar_not_ws (hiw c (List.mem_of_mem_head? (by rw [hc]; rfl)))

/-! Per-parser evaluation and success-extraction lemmas. -/

theorem parseFromDotted_head_i (pfx X : PyStr) :
    parseFromDotted pfx ('i' :: X) = none := by
  unfold parseFromDotted kwFrom
  rw [munchLit_head_ne (by decide)]
  rfl

theorem parseFromPkg_head_i (pfx X : PyStr) :
    parseFromPkg pfx ('i' :: X) = none := by
  unfold parseFromPkg kwFrom
  rw [munchLit_head_ne (by decide)]
  rfl

theorem parseDottedAs_head_f (pfx X : PyStr) :
    parseDottedAs pfx ('f' :: X) = none := by
  unfold parseDottedAs kwImport
  rw [munchLit_head_ne (by decide)]
  rfl

theorem parseDottedBare_head_f (pfx X : PyStr) :
    parseDottedBare pfx ('f' :: X) = none := by
  unfold parseDottedBare kwImport
  rw [munchLit_head_ne (by decide)]
  rfl

theorem parseFromDotted_shape {pfx i tail : PyStr} (hi : i ≠ [])
    (hiw : ∀ c ∈ i, wChar c = true)
    (htail : tail = [] ∨ tail.head? = some ' ')
    (hpws : ∀ c ∈ pfx, pyWs c = false) :
    parseFromDotted pfx (kwFrom ++ (' ' :: (i ++ tail))) = none := by
  unfold parseFromDotted
  rw [munchLit_append]
  simp only [Option.some_bind]
  rw [munchWs1_space (head?_ident_append hi hiw)]
  simp only [Option.some_bind]
  rw [munchLit_pfxdot_none hi hiw htail hpws]
  rfl

theorem parseDottedAs_shape {pfx i tail : PyStr} (hi : i ≠ [])
    (hiw : ∀ c ∈ i, wChar c = true)
    (htail : tail = [] ∨ tail.head? = some ' ')
    (hpws : ∀ c ∈ pfx, pyWs c = false) :
    parseDottedAs pfx (kwImport ++ (' ' :: (i ++ tail))) = none := by
  unfold parseDottedAs
  rw [munchLit_append]
  simp only [Option.some_bind]
  rw [munchWs1_space (head?_ident_append hi hiw)]
  simp only [Option.some_bind]
  rw [munchLit_pfxdot_none hi hiw htail hpws]
  rfl

theorem parseDottedBare_shape {pfx i tail : PyStr} (hi : i ≠ [])
    (hiw : ∀ c ∈ i, wChar c = true)
    (htail : tail = [] ∨ tail.head? = some ' ')
    (hpws : ∀ c ∈ pfx, pyWs c = false) :
    parseDottedBare pfx (kwImport ++ (' ' :: (i ++ tail))) = none := by
  unfold parseDottedBare
  rw [munchLit_append]
  simp only [Option.some_bind]
  rw [munchWs1_space (head?_ident_append hi hiw)]
  simp only [Option.some_bind]
  rw [munchLit_pfxdot_none hi hiw htail hpws]
  rfl

theorem parseFromDotted_facts {pfx line i rest : PyStr}
    (h : parseFromDotted pfx line = some (i, rest)) :
    i ≠ [] ∧ ∀ c ∈ i, wChar c = true := by
  unfold parseFromDotted at h
  simp only [Option.bind_eq_some] at h
  obtain ⟨s1, h1, s2, h2, s3, h3, is4, h4, s5, h5, s6, h6, s7, h7, hfin⟩ := h
  have hpair := Option.some.inj hfin
  have hi1 : is4.1 = i := congrArg Prod.fst hpair
  have hfacts := munchIdent_facts (i := is4.1) (t := is4.2) h4
  rw [hi1] at hfacts
  exact hfacts

theorem parseDottedAs_facts {pfx line i rest : PyStr}
    (h : parseDottedAs pfx line = some (i, rest)) :
    i ≠ [] ∧ ∀ c ∈ i, wChar c = true := by
  unfold parseDottedAs at h
  simp only [Option.bind_eq_some] at h
  obtain ⟨s1, h1, s2, h2, s3, h3, is4, h4, s5, h5, s6, h6, s7, h7, hfin⟩ := h
  have hpair := Option.some.inj hfin
  have hi1 : is4.1 = i := congrArg Prod.fst hpair
  have hfacts := munchIdent_facts (i := is4.1) (t := is4.2) h4
  rw [hi1] at hfacts
  exact hfacts

theorem parseDottedBare_facts {pfx line i : PyStr}
    (h : parseDottedBare pfx line = some i) :
    i ≠ [] ∧ ∀ c ∈ i, wChar c = true := by
  unfold parseDottedBare at h
  simp only [Option.bind_eq_some] at h
  obtain ⟨s1, h1, s2, h2, s3, h3, is4, h4, hfin⟩ := h
  by_cases hall : is4.2.all pyWs = true
  · rw [if_pos hall] at hfin
    have hi1 : is4.1 = i := Option.some.inj hfin
    have hfacts := munchIdent_facts (i := is4.1) (t := is4.2) h4
    rw [hi1] at hfacts
    exact hfacts
  · rw [if_neg hall] at hfin
    exact absurd hfin (by simp)

theorem parseFromPkg_facts {pfx line i : PyStr}
    (h : parseFromPkg pfx line = some i) :
    i ≠ [] ∧ ∀ c ∈ i, wChar c = true := by
  unfold parseFromPkg at h
  simp only [Option.bind_eq_some] at h
  obtain ⟨s1, h1, s2, h2, s3, h3, s4, h4, s5, h5, s6, h6, is7, h7, hfin⟩ := h
  by_cases hall : is7.2.all pyWs = true
  · rw [if_pos hall] at hfin
    have hi1 : is7.1 = i := Option.some.inj hfin
    have hfacts := munchIdent_facts (i := is7.1) (t := is7.2) h7
    rw [hi1] at hfacts
    exact hfacts
  · rw [if_neg hall] at hfin
    exact absurd hfin (by simp)

/-- A rewritten `import x` line matches none of the four shapes. -/
theorem matchesAny_import_ident {pfx i : PyStr} (hi : i ≠ [])
    (hiw : ∀ c ∈ i, wChar c = true) (hpws : ∀ c ∈ pfx, pyWs c = false) :
    matchesAnyImportShape pfx (kwImport ++ (' ' :: i)) = false := by
  have m1 : parseFromDotted pfx (kwImport ++ (' ' :: i)) = none :=
    parseFromDotted_head_i pfx _
  have m2 : parseDottedAs pfx (kwImport ++ (' ' :: i)) = none := by
    have hsh := @parseDottedAs_shape pfx i [] hi hiw (Or.inl rfl) hpws
    rwa [List.append_nil] at hsh
  have m3 : parseDottedBare pfx (kwImport ++ (' ' :: i)) = none := by
    have hsh := @parseDottedBare_shape pfx i [] hi hiw (Or.inl rfl) hpws
    rwa [List.append_nil] at hsh
  have m4 : parseFromPkg pfx (kwImport ++ (' ' :: i)) = none :=
    parseFromPkg_head_i pfx _
  simp [matchesAnyImportShape, m1, m2, m3, m4]

/-- After the four substitutions, a line matches none of the four
recognized import shapes (for a whitespace-free, nonempty prefix). -/
theorem rewriteLine_no_shape (pfx line : PyStr)
    (hpws : ∀ c ∈ pfx, pyWs c = false) :
    matchesAnyImportShape pfx (rewriteLine pfx line) = false := by
  unfold rewriteLine
  cases h1 : parseFromDotted pfx line with
  | some v1 =>
    obtain ⟨i1, r1⟩ := v1
    obtain ⟨hi1, hiw1⟩ := parseFromDotted_facts h1
    have e1 : subFromDotted pfx line =
        kwFrom ++ (' ' :: (i1 ++ (' ' :: (kwImport ++ (' ' :: r1))))) := by
      unfold subFromDotted
      rw [h1]
      simp
    rw [e1]
    have h2 : parseDottedAs pfx
        (kwFrom ++ (' ' :: (i1 ++ (' ' :: (kwImport ++ (' ' :: r1)))))) = none :=
      parseDottedAs_head_f pfx _
    have e2 : subDottedAs pfx
        (kwFrom ++ (' ' :: (i1 ++ (' ' :: (kwImport ++ (' ' :: r1)))))) =
        kwFrom ++ (' ' :: (i1 ++ (' ' :: (kwImport ++ (' ' :: r1))))) := by
      unfold subDottedAs
      rw [h2]
    rw [e2]
    have h3 : parseDottedBare pfx
        (kwFrom ++ (' ' :: (i1 ++ (' ' :: (kwImport ++ (' ' :: r1)))))) = none :=
      parseDottedBare_head_f pfx _
    have e3 : subDottedBare pfx
        (kwFrom ++ (' ' :: (i1 ++ (' ' :: (kwImport ++ (' ' :: r1)))))) =
        kwFrom ++ (' ' :: (i1 ++ (' ' :: (kwImport ++ (' ' :: r1))))) := by
      unfold subDottedBare
      rw [h3]
    rw [e3]
    cases h4 : parseFromPkg pfx
        (kwFrom ++ (' ' :: (i1 ++ (' ' :: (kwImport ++ (' ' :: r1)))))) with
    | some i2 =>
      obtain ⟨hi2, hiw2⟩ := parseFromPkg_facts h4
      have e4 : subFromPkg pfx
          (kwFrom ++ (' ' :: (i1 ++ (' ' :: (kwImport ++ (' ' :: r1)))))) =
          kwImport ++ (' ' :: i2) := by
        unfold subFromPkg
        rw [h4]
        simp
      rw [e4]
      exact matchesAny_import_ident hi2 hiw2 hpws
    | none =>
      have e4 : subFromPkg pfx
          (kwFrom ++ (' ' :: (i1 ++ (' ' :: (kwImport ++ (' ' :: r1)))))) =
          kwFrom ++ (' ' :: (i1 ++ (' ' :: (kwImport ++ (' ' :: r1))))) := by
        unfold subFromPkg
        rw [h4]
      rw [e4]
      have m1 : parseFromDotted pfx
          (kwFrom ++ (' ' :: (i1 ++ (' ' :: (kwImport ++ (' ' :: r1)))))) = none :=
        parseFromDotted_shape hi1 hiw1 (Or.inr rfl) hpws
      simp [matchesAnyImportShape, m1, h2, h3, h4]
  | none =>
    have e1 : subFromDotted pfx line = line := by
      unfold subFromDotted
      rw [h1]
    rw [e1]
    cases h2 : parseDottedAs pfx line with
    | some v2 =>
      obtain ⟨i2, r2⟩ := v2
      obtain ⟨hi2, hiw2⟩ := parseDottedAs_facts h2
      have e2 : subDottedAs pfx line =
          kwImport ++ (' ' :: (i2 ++ (' ' :: (kwAs ++ (' ' :: r2))))) := by
        unfold subDottedAs
        rw [h2]
        simp
      rw [e2]
      have h3 : parseDottedBare pfx
          (kwImport ++ (' ' :: (i2 ++ (' ' :: (kwAs ++ (' ' :: r2)))))) = none :=
        parseDottedBare_shape hi2 hiw2 (Or.inr rfl) hpws
      have e3 : subDottedBare pfx
          (kwImport ++ (' ' :: (i2 ++ (' ' :: (kwAs ++ (' ' :: r2)))))) =
          kwImport ++ (' ' :: (i2 ++ (' ' :: (kwAs ++ (' ' :: r2))))) := by
        unfold subDottedBare
        rw [h3]
      rw [e3]
      have h4 : parseFromPkg pfx
          (kwImport ++ (' ' :: (i2 ++ (' ' :: (kwAs ++ (' ' :: r2)))))) = none :=
        parseFromPkg_head_i pfx _
      have e4 : subFromPkg pfx
          (kwImport ++ (' ' :: (i2 ++ (' ' :: (kwAs ++ (' ' :: r2)))))) =
          kwImport ++ (' ' :: (i2 ++ (' ' :: (kwAs ++ (' ' :: r2))))) := by
        unfold subFromPkg
        rw [h4]
      rw [e4]
      have m1 : parseFromDotted pfx
          (kwImport ++ (' ' :: (i2 ++ (' ' :: (kwAs ++ (' ' :: r2)))))) = none :=
        parseFromDotted_head_i pfx _
      have m2 : parseDottedAs pfx
          (kwImport ++ (' ' :: (i2 ++ (' ' :: (kwAs ++ (' ' :: r2)))))) = none :=
        parseDottedAs_shape hi2 hiw2 (Or.inr rfl) hpws
      simp [matchesAnyImportShape, m1, m2, h3, h4]
    | none =>
      have e2 : subDottedAs pfx line = line := by
        unfold subDottedAs
        rw [h2]
      rw [e2]
      cases h3 : parseDottedBare pfx line with
      | some i3 =>
        obtain ⟨hi3, hiw3⟩ := parseDottedBare_facts h3
        have e3 : subDottedBare pfx line = kwImport ++ (' ' :: i3) := by
          unfold subDottedBare
          rw [h3]
          simp
        rw [e3]
        have h4 : parseFromPkg pfx (kwImport ++ (' ' :: i3)) = none :=
          parseFromPkg_head_i pfx _
        have e4 : subFromPkg pfx (kwImport ++ (' ' :: i3)) =
            kwImport ++ (' ' :: i3) := by
          unfold subFromPkg
          rw [h4]
        rw [e4]
        exact matchesAny_import_ident hi3 hiw3 hpws
      | none =>
        have e3 : subDottedBare pfx line = line := by
          unfold subDottedBare
          rw [h3]
        rw [e3]
        cases h4 : parseFromPkg pfx line with
        | some i4 =>
          obtain ⟨hi4, hiw4⟩ := parseFromPkg_facts h4
          have e4 : subFromPkg pfx line = kwImport ++ (' ' :: i4) := by
            unfold subFromPkg
            rw [h4]
            simp
          rw [e4]
          exact matchesAny_import_ident hi4 hiw4 hpws
        | none =>
          have e4 : subFromPkg pfx line = line := by
            unfold subFromPkg
            rw [h4]
          rw [e4]
          simp [matchesAnyImportShape, h1, h2, h3, h4]

/-! Splitting on a separator inverts joining, for pieces free of it. -/

theorem splitOnChar_ne_nil (c : Char) (s : PyStr) : splitOnChar c s ≠ [] := by
  cases s with
  | nil => simp [splitOnChar]
  | cons x xs =>
    unfold splitOnChar
    by_cases hx : x = c
    · rw [if_pos hx]
      simp
    · rw [if_neg hx]
      cases splitOnChar c xs <;> simp

theorem splitOnChar_no_sep (c : Char) (s : PyStr) :
    ∀ p ∈ splitOnChar c s, c ∉ p := by
  induction s with
  | nil =>
    intro p hp
    simp only [splitOnChar, List.mem_singleton] at hp
    subst hp
    simp
  | cons x xs ih =>
    intro p hp
    unfold splitOnChar at hp
    by_cases hx : x = c
    · rw [if_pos hx] at hp
      rcases List.mem_cons.mp hp with rfl | hp
      · simp
      · exact ih p hp
    · rw [if_neg hx] at hp
      cases hsp : splitOnChar c xs with
      | nil => exact absurd hsp (splitOnChar_ne_nil c xs)
      | cons h t =>
        rw [hsp] at hp
        rcases List.mem_cons.mp hp with rfl | hp
        · intro hmem
          rcases List.mem_cons.mp hmem with rfl | hmem
          · exact hx rfl
          · exact ih h (by rw [hsp]; simp) hmem
        · exact ih p (by rw [hsp]; simp [hp])

theorem splitOnChar_of_no_sep {c : Char} {p : PyStr} (h : c ∉ p) :
    splitOnChar c p = [p] := by
  induction p with
  | nil => rfl
  | cons x xs ih =>
    have hx : x ≠ c := fun e => h (by rw [e]; simp)
    unfold splitOnChar
    rw [if_neg hx, ih (fun hm => h (List.mem_cons_of_mem _ hm))]

theorem splitOnChar_append_sep {c : Char} {p z : PyStr} (h : c ∉ p) :
    splitOnChar c (p ++ c :: z) = p :: splitOnChar c z := by
  induction p with
  | nil =>
    show splitOnChar c (c :: z) = [] :: splitOnChar c z
    conv_lhs => unfold splitOnChar
    rw [if_pos rfl]
  | cons x xs ih =>
    have hx : x ≠ c := fun e => h (by rw [e]; simp)
    show splitOnChar c (x :: (xs ++ c :: z)) = (x :: xs) :: splitOnChar c z
    conv_lhs => unfold splitOnChar
    rw [if_neg hx, ih (fun hm => h (List.mem_cons_of_mem _ hm))]

theorem intercalate_cons_sep (c : Char) (a : PyStr) (xs : List PyStr) (h : xs ≠ []) :
    List.intercalate [c] (a :: xs) = a ++ [c] ++ List.intercalate [c] xs := by
  cases xs with
  | nil => exact absurd rfl h
  | cons y t => simp [List.intercalate, List.intersperse]

theorem splitOnChar_intercalate {c : Char} {parts : List PyStr} (hne : parts ≠ [])
    (h : ∀ p ∈ parts, c ∉ p) :
    splitOnChar c (List.intercalate [c] parts) = parts := by
  induction parts with
  | nil => exact absurd rfl hne
  | cons p rest ih =>
    cases hr : rest with
    | nil =>
      subst hr
      show splitOnChar c (List.intercalate [c] [p]) = [p]
      rw [show List.intercalate [c] [p] = p by simp [List.intercalate, List.intersperse]]
      exact splitOnChar_of_no_sep (h p (by simp))
    | cons q t =>
      rw [← hr]
      rw [intercalate_cons_sep c p rest (by rw [hr]; simp)]
      rw [List.append_assoc, List.singleton_append]
      rw [splitOnChar_append_sep (h p (by simp))]
      rw [ih (by rw [hr]; simp) (fun x hx => h x (List.mem_cons_of_mem _ hx))]

/-! The rewrite introduces no newline, so the joined file splits back into
exactly the rewritten lines. -/

theorem munchLit_suffix {lit s t : PyStr} (h : munchLit lit s = some t) : t <:+ s := by
  unfold munchLit at h
  by_cases hc : lit.isPrefixOf s = true
  · rw [if_pos hc] at h
    rw [← Option.some.inj h]
    exact List.drop_suffix _ _
  · rw [if_neg hc] at h
    exact absurd h (by simp)

theorem munchWs1_suffix {s t : PyStr} (h : munchWs1 s = some t) : t <:+ s := by
  unfold munchWs1 at h
  cases s with
  | nil => exact absurd h (by simp)
  | cons x xs =>
    change (if pyWs x then some (xs.dropWhile pyWs) else none) = some t at h
    by_cases hx : pyWs x = true
    · rw [if_pos hx] at h
      rw [← Option.some.inj h]
      exact (List.dropWhile_suffix _).trans (List.suffix_cons _ _)
    · rw [if_neg hx] at h
      exact absurd h (by simp)

theorem munchIdent_suffix {s i t : PyStr} (h : munchIdent s = some (i, t)) : t <:+ s := by
  unfold munchIdent at h
  cases s with
  | nil => exact absurd h (by simp)
  | cons x xs =>
    change (if identStart x = true then
        some (x :: xs.takeWhile wChar, xs.dropWhile wChar) else none) = some (i, t) at h
    by_cases hx : identStart x = true
    · rw [if_pos hx] at h
      have ht : xs.dropWhile wChar = t := congrArg Prod.snd (Option.some.inj h)
      rw [← ht]
      exact (List.dropWhile_suffix _).trans (List.suffix_cons _ _)
    · rw [if_neg hx] at h
      exact absurd h (by simp)

theorem parseFromDotted_rest_suffix {pfx line i rest : PyStr}
    (h : parseFromDotted pfx line = some (i, rest)) : rest <:+ line := by
  unfold parseFromDotted at h
  simp only [Option.bind_eq_some] at h
  obtain ⟨s1, h1, s2, h2, s3, h3, is4, h4, s5, h5, s6, h6, s7, h7, hfin⟩ := h
  have hr : s7 = rest := congrArg Prod.snd (Option.some.inj hfin)
  rw [← hr]
  exact ((((((munchWs1_suffix h7).trans (munchLit_suffix h6)).trans
    (munchWs1_suffix h5)).trans (munchIdent_suffix (i := is4.1) (t := is4.2) h4)).trans
    (munchLit_suffix h3)).trans (munchWs1_suffix h2)).trans (munchLit_suffix h1)

theorem parseDottedAs_rest_suffix {pfx line i rest : PyStr}
    (h : parseDottedAs pfx line = some (i, rest)) : rest <:+ line := by
  unfold parseDottedAs at h
  simp only [Option.bind_eq_some] at h
  obtain ⟨s1, h1, s2, h2, s3, h3, is4, h4, s5, h5, s6, h6, s7, h7, hfin⟩ := h
  have hr : s7 = rest := congrArg Prod.snd (Option.some.inj hfin)
  rw [← hr]
  exact ((((((munchWs1_suffix h7).trans (munchLit_suffix h6)).trans
    (munchWs1_suffix h5)).trans (munchIdent_suffix (i := is4.1) (t := is4.2) h4)).trans
    (munchLit_suffix h3)).trans (munchWs1_suffix h2)).trans (munchLit_suffix h1)

theorem wChar_not_nl {c : Char} (h : wChar c = true) : c ≠ '\n' := by
  intro e
  subst e
  exact absurd h (by decide)

theorem rewriteLine_no_newline {pfx line : PyStr} (h : '\n' ∉ line) :
    '\n' ∉ rewriteLine pfx line := by
  unfold rewriteLine
  have step1 : '\n' ∉ subFromDotted pfx line := by
    unfold subFromDotted
    cases hp : parseFromDotted pfx line with
    | none => exact h
    | some v =>
      obtain ⟨i, rest⟩ := v
      obtain ⟨-, hiw⟩ := parseFromDotted_facts hp
      have hrs := parseFromDotted_rest_suffix hp
      intro hmem
      simp only [List.append_assoc, List.mem_append, List.mem_singleton] at hmem
      rcases hmem with hm | hm | hm | hm | hm | hm | hm
      · exact absurd hm (by decide)
      · exact absurd hm (by decide)
      · exact wChar_not_nl (hiw _ hm) rfl
      · exact absurd hm (by decide)
      · exact absurd hm (by decide)
      · exact absurd hm (by decide)
      · exact h (hrs.sublist.subset hm)
  have step2 : '\n' ∉ subDottedAs pfx (subFromDotted pfx line) := by
    unfold subDottedAs
    cases hp : parseDottedAs pfx (subFromDotted pfx line) with
    | none => exact step1
    | some v =>
      obtain ⟨i, rest⟩ := v
      obtain ⟨-, hiw⟩ := parseDottedAs_facts hp
      have hrs := parseDottedAs_rest_suffix hp
      intro hmem
      simp only [List.append_assoc, List.mem_append, List.mem_singleton] at hmem
      rcases hmem with hm | hm | hm | hm | hm | hm | hm
      · exact absurd hm (by decide)
      · exact absurd hm (by decide)
      · exact wChar_not_nl (hiw _ hm) rfl
      · exact absurd hm (by decide)
      · exact absurd hm (by decide)
      · exact absurd hm (by decide)
      · exact step1 (hrs.sublist.subset hm)
  have step3 : '\n' ∉ subDottedBare pfx (subDottedAs pfx (subFromDotted pfx line)) := by
    unfold subDottedBare
    cases hp : parseDottedBare pfx (subDottedAs pfx (subFromDotted pfx line)) with
    | none => exact step2
    | some i =>
      obtain ⟨-, hiw⟩ := parseDottedBare_facts hp
      intro hmem
      simp only [List.append_assoc, List.mem_append, List.mem_singleton] at hmem
      rcases hmem with hm | hm | hm
      · exact absurd hm (by decide)
      · exact absurd hm (by decide)
      · exact wChar_not_nl (hiw _ hm) rfl
  unfold subFromPkg
  cases hp : parseFromPkg pfx (subDottedBare pfx (subDottedAs pfx (subFromDotted pfx line))) with
  | none => exact step3
  | some i =>
    obtain ⟨-, hiw⟩ := parseFromPkg_facts hp
    intro hmem
    simp only [List.append_assoc, List.mem_append, List.mem_singleton] at hmem
    rcases hmem with hm | hm | hm
    · exact absurd hm (by decide)
    · exact absurd hm (by decide)
    · exact wChar_not_nl (hiw _ hm) rfl

/-- Per-file version: every line of a rewritten file matches none of the
four recognized import shapes. -/
theorem rewriteText_no_shape (pfx text : PyStr)
    (hws : ∀ c ∈ pfx, pyWs c = false) :
    ∀ line ∈ splitOnChar '\n' (rewriteText pfx text),
      matchesAnyImportShape pfx line = false := by
  intro line hline
  unfold rewriteText at hline
  rw [splitOnChar_intercalate
      (by
        rw [Ne, List.map_eq_nil]
        exact splitOnChar_ne_nil '\n' text)
      (by
        intro p hp
        obtain ⟨l0, hl0, rfl⟩ := List.mem_map.mp hp
        exact rewriteLine_no_newline (splitOnChar_no_sep '\n' text l0 hl0))] at hline
  obtain ⟨l0, hl0, rfl⟩ := List.mem_map.mp hline
  exact rewriteLine_no_shape pfx l0 hws

/-! ## Claim C6 -/

/-- The C6 counterexample file: a deeper-nested qualified import. -/
def c6File : PyStr := ("from proj.sub.mod import x").toList

/--
C6 counterexample: the claim states that after the rewriter runs, no
remaining top-level import statement is qualified by the project's dotted
root prefix.  A deeper-nested import `from proj.sub.mod import x` matches
none of the four recognized substitution shapes, so the rewriter leaves
the file unchanged, and the remaining line is qualified by the prefix
`proj` (it starts with `from proj.`).
-/
theorem c6_deep_import_remains :
    enforce_same_folder_imports [((("proj/a.py").toList), c6File)] (("proj").toList) =
        [((("proj/a.py").toList), c6File)] ∧
      spec_qualifiedImport (("proj").toList) c6File = true := by
  decide

/--
C6 amended: the rewrite is complete with respect to its own four
recognized shapes: for a module directory that normalizes to a real
directory name (not empty, not `.`) whose dotted form contains no
whitespace, every line of every `.py` file under that directory, after
`_enforce_same_folder_imports` runs, matches none of the four recognized import
shapes (import-from-dotted, import-dotted-as, import-dotted-bare, import-from-package-name)
for the project's dotted root prefix.  Deeper
nesting, wildcard imports, multi-name from-imports and mid-line imports
are left untouched and may remain qualified, as the counterexample shows.
-/
theorem c6_no_recognized_shape_remains (fs : FS) (module_dir : PyStr)
    (hmd1 : stripSlash (norm_rel module_dir) ≠ [])
    (hmd2 : stripSlash (norm_rel module_dir) ≠ ['.'])
    (hws : ∀ c ∈ dottedPfx (stripSlash (norm_rel module_dir)), pyWs c = false) :
    ∀ kv ∈ enforce_same_folder_imports fs module_dir,
      (((stripSlash (norm_rel module_dir)) ++ ['/']).isPrefixOf kv.1 &&
          (".py").toList.isSuffixOf kv.1) = true →
      ∀ line ∈ splitOnChar '\n' kv.2,
        matchesAnyImportShape (dottedPfx (stripSlash (norm_rel module_dir))) line = false := by
  intro kv hkv hcond line hline
  unfold enforce_same_folder_imports at hkv
  rw [if_neg (by
    intro hor
    cases hor with
    | inl e => exact hmd1 e
    | inr e => exact hmd2 e)] at hkv
  by_cases hany : fs.any (fun kv =>
      ((stripSlash (norm_rel module_dir)) ++ ['/']).isPrefixOf kv.1 ||
        kv.1 == stripSlash (norm_rel module_dir)) = true
  · rw [if_neg (fun hc => hc hany)] at hkv
    obtain ⟨kv0, hkv0, hval⟩ := List.mem_map.mp hkv
    by_cases hc0 : (((stripSlash (norm_rel module_dir)) ++ ['/']).isPrefixOf kv0.1 &&
        (".py").toList.isSuffixOf kv0.1) = true
    · rw [if_pos hc0] at hval
      rw [← hval] at hline
      exact rewriteText_no_shape _ _ hws line hline
    · rw [if_neg hc0] at hval
      rw [← hval] at hcond
      exact absurd hcond hc0
  · rw [if_pos (fun hc => hany hc)] at hkv
    exfalso
    apply hany
    rw [List.any_eq_true]
    refine ⟨kv, hkv, ?_⟩
    rw [Bool.and_eq_true] at hcond
    rw [hcond.1]
    rfl

/-- C6 witness: the amended theorem applied to a concrete tree holding one
file under `proj` with two rewritable imports; the rewritten file's first
line (`from b import x`) matches none of the four recognized shapes. -/
theorem c6_rewrite_witness :
    matchesAnyImportShape (dottedPfx (stripSlash (norm_rel (("proj").toList))))
      (("from b import x").toList) = false :=
  c6_no_recognized_shape_remains
    [((("proj/a.py").toList), ("from proj.b import x\nimport proj.c\n").toList)]
    (("proj").toList) (by decide) (by decide) (by decide)
    ((("proj/a.py").toList), ("from b import x\nimport c\n").toList)
    (by decide) (by decide) (("from b import x").toList) (by decide)

/-! ## `Tools.generate_requirements_txt_from_imports` and
`Tools._collect_local_modules` (tools.py 54-135)

`ast.parse` plus the `ast.walk` traversal is the oracle `astOf`: it maps a
file's text to the ordered list of its import statements (`none` models a
parse failure, which the source skips).  `sys.stdlib_module_names` is the
parameter `stdlib`.  The repository directory's own name (`repoName`)
matters only when a marker file sits directly in a scanned repository
root. -/

/-- One import statement as the AST walk reports it. -/
inductive PyImport where
  | imp (name : PyStr)
  | impFrom (level : Nat) (mod : Option PyStr)

/-- `(alias.name or "").split(".")[0].strip()`. -/
def firstSeg (name : PyStr) : PyStr := pyStrip (name.takeWhile (fun c => c ≠ '.'))

/-- Add to the accumulated set (insertion-ordered, deduplicated — the model
of Python's `set.add`; the set is only ever sorted afterwards). -/
def insertNew (l : List PyStr) (x : PyStr) : List PyStr :=
  if l.contains x then l else l ++ [x]

/-- The collection step for one AST node: `ast.Import` adds the first
dotted segment of each alias; `ast.ImportFrom` is skipped when relative
(`level > 0`) or module-less. -/
def addImport (acc : List PyStr) (st : PyImport) : List PyStr :=
  match st with
  | .imp name =>
    if firstSeg name = [] then acc else insertNew acc (firstSeg name)
  | .impFrom level mod =>
    if level > 0 then acc
    else
      match mod with
      | none => acc
      | some m => if firstSeg m = [] then acc else insertNew acc (firstSeg m)

/-- The `.py` files one scan root contributes: the root itself when it is a
`.py` file; every `.py` file in the tree for the repository root `.`;
otherwise every `.py` file strictly under the root directory. -/
def scanPyFiles (fs : FS) (rel : PyStr) : List PyStr :=
  if rel = ['.'] then
    (fs.map Prod.fst).filter (fun k => (".py").toList.isSuffixOf k)
  else if fsExists fs rel then
    if (".py").toList.isSuffixOf rel then [rel] else []
  else
    (fs.map Prod.fst).filter (fun k =>
      (rel ++ ['/']).isPrefixOf k && (".py").toList.isSuffixOf k)

/-- All first-segment import names collected over the scan roots. -/
def collectImports (fs : FS) (roots : List PyStr)
    (astOf : PyStr → Option (List PyImport)) : List PyStr :=
  roots.foldl
    (fun acc rel =>
      (scanPyFiles fs rel).foldl
        (fun acc2 k =>
          match fsGet fs k with
          | none => acc2
          | some content =>
            match astOf content with
            | none => acc2
            | some stmts => stmts.foldl addImport acc2)
        acc)
    []

/-- The final path segment of a repository-relative key. -/
def lastSeg (k : PyStr) : PyStr := (splitOnChar '/' k).getLastD []

/-- `Path.stem` of a `.py` file name: the name with the 3-character `.py`
suffix removed. -/
def stemOf (k : PyStr) : PyStr := (lastSeg k).take ((lastSeg k).length - 3)

/-- `init.parent.name` for a marker file key: the second-to-last segment,
or the repository directory's own name for a top-level marker. -/
def parentDirName (repoName k : PyStr) : PyStr :=
  if (splitOnChar '/' k).length ≥ 2 then
    (splitOnChar '/' k).getD ((splitOnChar '/' k).length - 2) []
  else repoName

/-- `Tools._collect_local_modules`: stems of local `.py` files, names of
local package directories (those containing a marker file), plus
`__init__`. -/
def collect_local_modules (fs : FS) (roots : List PyStr) (repoName : PyStr) :
    List PyStr :=
  insertNew
    (roots.foldl
      (fun acc rel =>
        if rel ≠ ['.'] ∧ fsExists fs rel = true then
          if (".py").toList.isSuffixOf rel then insertNew acc (stemOf rel) else acc
        else
          let keys := (fs.map Prod.fst).filter
            (fun k => if rel = ['.'] then true else (rel ++ ['/']).isPrefixOf k)
          let acc2 := (keys.filter (fun k => (".py").toList.isSuffixOf k)).foldl
            (fun a k => insertNew a (stemOf k)) acc
          (keys.filter (fun k => lastSeg k == ("__init__.py").toList)).foldl
            (fun a k => insertNew a (parentDirName repoName k)) acc2)
      [])
    (("__init__").toList)

/-- The fixed import-name-to-distribution-name rename table. -/
def reqMapping (m : PyStr) : PyStr :=
  if m = ("yaml").toList then ("PyYAML").toList
  else if m = ("bs4").toList then ("beautifulsoup4").toList
  else if m = ("PIL").toList then ("Pillow").toList
  else if m = ("cv2").toList then ("opencv-python").toList
  else m

/-- The surviving import names: nonempty, not standard-library, not local,
not one of the fixed meta-names. -/
def survivingImports (fs : FS) (roots : List PyStr)
    (astOf : PyStr → Option (List PyImport)) (stdlib : List PyStr)
    (repoName : PyStr) : List PyStr :=
  (collectImports fs roots astOf).filter (fun m =>
    (!m.isEmpty) && (!stdlib.contains m) &&
      (!(collect_local_modules fs roots repoName).contains m) &&
      (!(m == ("__future__").toList)) && (!(m == ("typing").toList)))

/-- Python string `<` / `sorted`: lexicographic by code point. -/
def strLeB : PyStr → PyStr → Bool
  | [], _ => true
  | _ :: _, [] => false
  | a :: as, b :: bs =>
    if a.toNat < b.toNat then true
    else if a.toNat = b.toNat then strLeB as bs
    else false

/-- `sorted(mapping.get(m, m) for m in imports)`. -/
def reqsListOf (fs : FS) (roots : List PyStr)
    (astOf : PyStr → Option (List PyImport)) (stdlib : List PyStr)
    (repoName : PyStr) : List PyStr :=
  List.insertionSort (fun a b => strLeB a b = true)
    ((survivingImports fs roots astOf stdlib repoName).map reqMapping)

/-- `"\n".join(reqs).strip() + ("\n" if reqs else "")`. -/
def manifestContent (fs : FS) (roots : List PyStr)
    (astOf : PyStr → Option (List PyImport)) (stdlib : List PyStr)
    (repoName : PyStr) : PyStr :=
  pyStrip (List.intercalate ['\n'] (reqsListOf fs roots astOf stdlib repoName)) ++
    (if reqsListOf fs roots astOf stdlib repoName = [] then [] else ['\n'])

/-- `Tools.generate_requirements_txt_from_imports`: compute the manifest
content, write it unconditionally, return it. -/
def generate_requirements_txt_from_imports (fs : FS) (out_rel : PyStr)
    (roots : List PyStr) (astOf : PyStr → Option (List PyImport))
    (stdlib : List PyStr) (repoName : PyStr) : PyStr × FS :=
  (manifestContent fs roots astOf stdlib repoName,
    fsWrite fs out_rel (manifestContent fs roots astOf stdlib repoName))

/-! Facts about collected names and the sort order. -/

theorem pyStrip_head? {l : PyStr} {c : Char} (h : (pyStrip l).head? = some c) :
    pyWs c = false := by
  have hpre : pyStrip l <+: pyLStripWs l := by
    unfold pyStrip pyRStripWs
    apply List.reverse_suffix.mp
    rw [List.reverse_reverse]
    exact List.dropWhile_suffix _
  have hne : pyStrip l ≠ [] := by
    intro e
    rw [e] at h
    exact absurd h (by simp)
  have he := prefix_head?_eq hpre hne
  rw [h] at he
  exact head?_dropWhile_not he

/-- The invariant carried by every collected import name: nonempty names
produced by `firstSeg` are `strip()` outputs, so they neither start nor
end with whitespace. -/
def CleanName (m : PyStr) : Prop :=
  m ≠ [] ∧ (∀ c, m.head? = some c → pyWs c = false) ∧
    (∀ c, m.reverse.head? = some c → pyWs c = false)

theorem firstSeg_clean {name : PyStr} (h : firstSeg name ≠ []) :
    CleanName (firstSeg name) := by
  refine ⟨h, ?_, ?_⟩
  · intro c hc
    exact pyStrip_head? hc
  · intro c hc
    exact pyStrip_rev_head? hc

theorem insertNew_forall {P : PyStr → Prop} {l : List PyStr} {x : PyStr}
    (hl : ∀ y ∈ l, P y) (hx : P x) : ∀ y ∈ insertNew l x, P y := by
  intro y hy
  unfold insertNew at hy
  by_cases hc : l.contains x = true
  · rw [if_pos hc] at hy
    exact hl y hy
  · rw [if_neg hc] at hy
    rw [List.mem_append, List.mem_singleton] at hy
    rcases hy with hy | rfl
    · exact hl y hy
    · exact hx

theorem addImport_forall {acc : List PyStr} {st : PyImport}
    (h : ∀ y ∈ acc, CleanName y) : ∀ y ∈ addImport acc st, CleanName y := by
  cases st with
  | imp name =>
    show ∀ y ∈ (if firstSeg name = [] then acc else insertNew acc (firstSeg name)),
      CleanName y
    by_cases hn : firstSeg name = []
    · rw [if_pos hn]
      exact h
    · rw [if_neg hn]
      exact insertNew_forall h (firstSeg_clean hn)
  | impFrom level mod =>
    show ∀ y ∈ (if level > 0 then acc
        else match mod with
        | none => acc
        | some m => if firstSeg m = [] then acc else insertNew acc (firstSeg m)),
      CleanName y
    by_cases hl : level > 0
    · rw [if_pos hl]
      exact h
    · rw [if_neg hl]
      cases mod with
      | none => exact h
      | some m =>
        show ∀ y ∈ (if firstSeg m = [] then acc else insertNew acc (firstSeg m)),
          CleanName y
        by_cases hn : firstSeg m = []
        · rw [if_pos hn]
          exact h
        · rw [if_neg hn]
          exact insertNew_forall h (firstSeg_clean hn)

theorem foldl_forall {α : Type} {P : PyStr → Prop}
    (step : List PyStr → α → List PyStr)
    (hstep : ∀ acc a, (∀ y ∈ acc, P y) → ∀ y ∈ step acc a, P y) :
    ∀ (l : List α) (acc : List PyStr), (∀ y ∈ acc, P y) →
      ∀ y ∈ l.foldl step acc, P y := by
  intro l
  induction l with
  | nil => intro acc h; exact h
  | cons a t ih =>
    intro acc h
    exact ih _ (hstep acc a h)

theorem collectImports_clean (fs : FS) (roots : List PyStr)
    (astOf : PyStr → Option (List PyImport)) :
    ∀ m ∈ collectImports fs roots astOf, CleanName m := by
  unfold collectImports
  apply foldl_forall (P := CleanName) _ ?hroot roots [] (by simp)
  case hroot =>
  intro acc rel hacc
  apply foldl_forall (P := CleanName) _ ?hfile (scanPyFiles fs rel) acc hacc
  case hfile =>
  intro acc2 k hacc2
  show ∀ y ∈ (match fsGet fs k with
      | none => acc2
      | some content =>
        match astOf content with
        | none => acc2
        | some stmts => stmts.foldl addImport acc2), CleanName y
  cases fsGet fs k with
  | none => exact hacc2
  | some content =>
    show ∀ y ∈ (match astOf content with
        | none => acc2
        | some stmts => stmts.foldl addImport acc2), CleanName y
    cases astOf content with
    | none => exact hacc2
    | some stmts =>
      exact foldl_forall addImport (fun a st h => addImport_forall h) stmts acc2 hacc2

theorem reqMapping_clean {m : PyStr} (h : CleanName m) : CleanName (reqMapping m) := by
  unfold reqMapping
  by_cases h1 : m = ("yaml").toList
  · rw [if_pos h1]
    exact ⟨by decide, by decide, by decide⟩
  · rw [if_neg h1]
    by_cases h2 : m = ("bs4").toList
    · rw [if_pos h2]
      exact ⟨by decide, by decide, by decide⟩
    · rw [if_neg h2]
      by_cases h3 : m = ("PIL").toList
      · rw [if_pos h3]
        exact ⟨by decide, by decide, by decide⟩
      · rw [if_neg h3]
        by_cases h4 : m = ("cv2").toList
        · rw [if_pos h4]
          exact ⟨by decide, by decide, by decide⟩
        · rw [if_neg h4]
          exact h

theorem strLeB_total : ∀ a b : PyStr, strLeB a b = true ∨ strLeB b a = true := by
  intro a
  induction a with
  | nil => intro b; left; rfl
  | cons x xs ih =>
    intro b
    cases b with
    | nil => right; rfl
    | cons y ys =>
      unfold strLeB
      by_cases h1 : x.toNat < y.toNat
      · left
        rw [if_pos h1]
      · by_cases h2 : x.toNat = y.toNat
        · rw [if_neg h1, if_pos h2, if_neg (by omega), if_pos h2.symm]
          exact ih ys
        · right
          rw [if_pos (by omega)]

theorem strLeB_trans :
    ∀ a b c : PyStr, strLeB a b = true → strLeB b c = true → strLeB a c = true := by
  intro a
  induction a with
  | nil => intro b c _ _; rfl
  | cons x xs ih =>
    intro b c hab hbc
    cases b with
    | nil => exact absurd hab (by simp [strLeB])
    | cons y ys =>
      cases c with
      | nil => exact absurd hbc (by simp [strLeB])
      | cons z zs =>
        unfold strLeB at hab hbc ⊢
        by_cases h1 : x.toNat < y.toNat
        · by_cases h2 : y.toNat < z.toNat
          · rw [if_pos (by omega)]
          · rw [if_neg h2] at hbc
            by_cases h3 : y.toNat = z.toNat
            · rw [if_pos (by omega)]
            · rw [if_neg h3] at hbc
              exact absurd hbc (by simp)
        · rw [if_neg h1] at hab
          by_cases h4 : x.toNat = y.toNat
          · rw [if_pos h4] at hab
            by_cases h2 : y.toNat < z.toNat
            · rw [if_pos (by omega)]
            · rw [if_neg h2] at hbc
              by_cases h3 : y.toNat = z.toNat
              · have hxz1 : ¬(x.toNat < z.toNat) := by omega
                have hxz2 : x.toNat = z.toNat := by omega
                rw [if_neg hxz1, if_pos hxz2]
                rw [if_pos h3] at hbc
                exact ih ys zs hab hbc
              · rw [if_neg h3] at hbc
                exact absurd hbc (by simp)
          · rw [if_neg h4] at hab
            exact absurd hab (by simp)

instance : IsTotal PyStr (fun a b => strLeB a b = true) := ⟨strLeB_total⟩

instance : IsTrans PyStr (fun a b => strLeB a b = true) :=
  ⟨fun a b c => strLeB_trans a b c⟩

theorem intercalate_head?_of_clean {reqs : List PyStr}
    (h : ∀ x ∈ reqs, CleanName x) :
    ∀ c, (List.intercalate ['\n'] reqs).head? = some c → pyWs c = false := by
  intro c hc
  cases reqs with
  | nil => simp [List.intercalate] at hc
  | cons r rest =>
    have hr := h r (by simp)
    cases rest with
    | nil =>
      rw [show List.intercalate ['\n'] [r] = r by
        simp [List.intercalate, List.intersperse]] at hc
      exact hr.2.1 c hc
    | cons q t =>
      rw [intercalate_cons_sep '\n' r (q :: t) (by simp)] at hc
      rw [List.append_assoc, head?_append_left hr.1] at hc
      exact hr.2.1 c hc

theorem intercalate_ne_nil_of_clean {reqs : List PyStr} (hne : reqs ≠ [])
    (h : ∀ x ∈ reqs, CleanName x) : List.intercalate ['\n'] reqs ≠ [] := by
  cases reqs with
  | nil => exact absurd rfl hne
  | cons r rest =>
    have hr := h r (by simp)
    cases rest with
    | nil =>
      rw [show List.intercalate ['\n'] [r] = r by
        simp [List.intercalate, List.intersperse]]
      exact hr.1
    | cons q t =>
      rw [intercalate_cons_sep '\n' r (q :: t) (by simp)]
      simp only [List.append_assoc]
      intro he
      rw [List.append_eq_nil] at he
      exact hr.1 he.1

theorem intercalate_rev_head?_of_clean (reqs : List PyStr)
    (h : ∀ x ∈ reqs, CleanName x) :
    ∀ c, (List.intercalate ['\n'] reqs).reverse.head? = some c → pyWs c = false := by
  induction reqs with
  | nil => intro c hc; simp [List.intercalate] at hc
  | cons r rest ih =>
    intro c hc
    have hr := h r (by simp)
    cases hrest : rest with
    | nil =>
      subst hrest
      rw [show List.intercalate ['\n'] [r] = r by
        simp [List.intercalate, List.intersperse]] at hc
      exact hr.2.2 c hc
    | cons q t =>
      subst hrest
      rw [intercalate_cons_sep '\n' r (q :: t) (by simp)] at hc
      rw [List.reverse_append, List.reverse_append] at hc
      have hresne : List.intercalate ['\n'] (q :: t) ≠ [] := by
        apply intercalate_ne_nil_of_clean (by simp)
        intro x hx
        exact h x (List.mem_cons_of_mem _ hx)
      rw [head?_append_left (by
        intro he
        rw [List.reverse_eq_nil_iff] at he
        exact hresne he)] at hc
      exact ih (fun x hx => h x (List.mem_cons_of_mem _ hx)) c hc

/-! ## Claims C7 and C8 -/

/-- C7/C8 counterexample tree: a project importing `PIL` next to a local
file `Pillow.py`. -/
def c7Fs : FS :=
  [(("proj/app.py").toList, ("import PIL\n").toList),
   (("proj/Pillow.py").toList, ("x = 1\n").toList)]

/-- Import-statement oracle for the C7 tree. -/
def c7Ast : PyStr → Option (List PyImport) := fun c =>
  if c == ("import PIL\n").toList then some [PyImport.imp (("PIL").toList)]
  else some []

/--
C7 counterexample: with the scan set `proj` containing `app.py` (which imports
`PIL`) and a local file `Pillow.py`, the raw import name `PIL`
survives every exclusion, and the rename table then turns it into
`Pillow` — which is the stem of the local source file `Pillow.py` under
the scanned root.  The generated manifest therefore contains a name that
is a local file stem, contradicting the claim (the exclusions are applied
before the rename, not after).
-/
theorem c7_renamed_collides_local :
    reqsListOf c7Fs [("proj").toList] c7Ast [] (("repo").toList) =
        [("Pillow").toList] ∧
      (collect_local_modules c7Fs [("proj").toList] (("repo").toList)).contains
        (("Pillow").toList) = true := by
  constructor
  · rfl
  · rfl

/--
C7 amended: the exclusion set is applied to the raw import names before
the rename table: every name in the generated manifest is the image under
the fixed rename table of a collected import name that is nonempty, not a
standard-library name, not a local module name (file stem or package
directory under the scanned roots), and not one of the fixed meta-names
`__future__` / `typing`.  (A renamed distribution name may itself coincide
with a local stem or standard-library name, as the counterexample shows.)
-/
theorem c7_raw_names_excluded (fs : FS) (roots : List PyStr)
    (astOf : PyStr → Option (List PyImport)) (stdlib : List PyStr)
    (repoName : PyStr) :
    ∀ name ∈ reqsListOf fs roots astOf stdlib repoName,
      ∃ m, m ∈ collectImports fs roots astOf ∧ m ≠ [] ∧
        stdlib.contains m = false ∧
        (collect_local_modules fs roots repoName).contains m = false ∧
        m ≠ ("__future__").toList ∧ m ≠ ("typing").toList ∧
        reqMapping m = name := by
  intro name hname
  unfold reqsListOf at hname
  rw [List.mem_insertionSort] at hname
  obtain ⟨m, hm, rfl⟩ := List.mem_map.mp hname
  unfold survivingImports at hm
  rw [List.mem_filter] at hm
  obtain ⟨hmem, hpred⟩ := hm
  simp only [Bool.and_eq_true, Bool.not_eq_true'] at hpred
  obtain ⟨⟨⟨⟨hn, hstd⟩, hloc⟩, hfut⟩, htyp⟩ := hpred
  refine ⟨m, hmem, ?_, hstd, hloc, ?_, ?_, rfl⟩
  · intro e
    rw [e] at hn
    simp at hn
  · intro e
    rw [e] at hfut
    simp at hfut
  · intro e
    rw [e] at htyp
    simp at htyp

/-- C7 witness tree: one file importing `yaml` and `requests`. -/
def c7wFs : FS := [(("proj/app.py").toList, ("import requests\n").toList)]

/-- Oracle for the witness tree. -/
def c7wAst : PyStr → Option (List PyImport) := fun c =>
  if c == ("import requests\n").toList then
    some [PyImport.imp (("requests").toList)]
  else some []

/-- C7 witness: the amended theorem applied at a concrete scan where the
manifest is `requests`. -/
theorem c7_raw_names_witness :
    ∃ m, m ∈ collectImports c7wFs [("proj").toList] c7wAst ∧ m ≠ [] ∧
      ([] : List PyStr).contains m = false ∧
      (collect_local_modules c7wFs [("proj").toList] (("repo").toList)).contains m = false ∧
      m ≠ ("__future__").toList ∧ m ≠ ("typing").toList ∧
      reqMapping m = ("requests").toList :=
  c7_raw_names_excluded c7wFs [("proj").toList] c7wAst [] (("repo").toList)
    (("requests").toList) (by decide)

/-- C8 counterexample tree: one file importing both `yaml` and `PyYAML`. -/
def c8Fs : FS := [(("proj/app.py").toList, ("import yaml\nimport PyYAML\n").toList)]

/-- Import-statement oracle for the C8 tree. -/
def c8Ast : PyStr → Option (List PyImport) := fun c =>
  if c == ("import yaml\nimport PyYAML\n").toList then
    some [PyImport.imp (("yaml").toList), PyImport.imp (("PyYAML").toList)]
  else some []

/--
C8 counterexample: deduplication happens on the raw import names (a set),
but the rename table is applied afterwards, so the distinct raw names
`yaml` and `PyYAML` both map to the distribution name `PyYAML` and the
written manifest contains the duplicate line twice — the claimed
"sorted, deduplicated sequence of the surviving import names after
applying the rename table" would be the single line `PyYAML`.
-/
theorem c8_duplicate_lines :
    manifestContent c8Fs [("proj").toList] c8Ast [] (("repo").toList) =
        ("PyYAML\nPyYAML\n").toList ∧
      ¬(reqsListOf c8Fs [("proj").toList] c8Ast [] (("repo").toList)).Nodup := by
  constructor
  · rfl
  · decide

theorem survivingImports_clean (fs : FS) (roots : List PyStr)
    (astOf : PyStr → Option (List PyImport)) (stdlib : List PyStr)
    (repoName : PyStr) :
    ∀ m ∈ survivingImports fs roots astOf stdlib repoName, CleanName m := by
  intro m hm
  unfold survivingImports at hm
  rw [List.mem_filter] at hm
  exact collectImports_clean fs roots astOf m hm.1

theorem reqsListOf_clean (fs : FS) (roots : List PyStr)
    (astOf : PyStr → Option (List PyImport)) (stdlib : List PyStr)
    (repoName : PyStr) :
    ∀ x ∈ reqsListOf fs roots astOf stdlib repoName, CleanName x := by
  intro x hx
  unfold reqsListOf at hx
  rw [List.mem_insertionSort] at hx
  obtain ⟨m, hm, rfl⟩ := List.mem_map.mp hx
  exact reqMapping_clean (survivingImports_clean fs roots astOf stdlib repoName m hm)

/--
C8 amended: the written manifest content is the newline-joined, sorted
sequence of the renamed surviving import names, with exactly one trailing
newline when nonempty: (1) the content equals the join of the sorted
renamed list followed by one `\n`, and is the empty string exactly when no import
survives (the file is still written, conjunct 4); (2) the list is
sorted; (3) its members are exactly the images of the surviving raw import
names under the rename table — deduplication applies to the raw
names only, so two raw names renamed to the same distribution name
produce duplicate manifest lines, as the counterexample shows; (4) the
manifest file exists after the run, whatever the content.
-/
theorem c8_manifest_content_spec (fs : FS) (out : PyStr) (roots : List PyStr)
    (astOf : PyStr → Option (List PyImport)) (stdlib : List PyStr)
    (repoName : PyStr) :
    (manifestContent fs roots astOf stdlib repoName =
        if reqsListOf fs roots astOf stdlib repoName = [] then []
        else List.intercalate ['\n'] (reqsListOf fs roots astOf stdlib repoName) ++ ['\n']) ∧
      List.Pairwise (fun a b => strLeB a b = true)
        (reqsListOf fs roots astOf stdlib repoName) ∧
      (∀ s, s ∈ reqsListOf fs roots astOf stdlib repoName ↔
        ∃ m ∈ survivingImports fs roots astOf stdlib repoName, reqMapping m = s) ∧
      fsExists
        (generate_requirements_txt_from_imports fs out roots astOf stdlib repoName).2
        out = true := by
  refine ⟨?_, ?_, ?_, ?_⟩
  · by_cases hreqs : reqsListOf fs roots astOf stdlib repoName = []
    · rw [if_pos hreqs]
      unfold manifestContent
      rw [hreqs]
      rfl
    · rw [if_neg hreqs]
      unfold manifestContent
      rw [if_neg hreqs]
      congr 1
      apply pyStrip_eq_self
      · exact intercalate_head?_of_clean (reqsListOf_clean fs roots astOf stdlib repoName)
      · exact intercalate_rev_head?_of_clean _ (reqsListOf_clean fs roots astOf stdlib repoName)
  · exact List.sorted_insertionSort _ _
  · intro s
    constructor
    · intro hs
      unfold reqsListOf at hs
      rw [List.mem_insertionSort] at hs
      obtain ⟨m, hm, rfl⟩ := List.mem_map.mp hs
      exact ⟨m, hm, rfl⟩
    · rintro ⟨m, hm, rfl⟩
      unfold reqsListOf
      rw [List.mem_insertionSort]
      exact List.mem_map.mpr ⟨m, hm, rfl⟩
  · unfold generate_requirements_txt_from_imports
    exact fsExists_fsWrite_self _ _ _

/-! ## `strip_code_fences` (utils.py 22-35) and the single-file fallback
write (agent.py 263-271)

The fence marker character is the code point 96 (a backtick), written via
`Char.ofNat`.  `splitlines` is modelled on `\n` only. -/

/-- The fence marker character (code point 96). -/
def fenceChar : Char := Char.ofNat 96

/-- Three fence markers. -/
def fence3 : PyStr := [fenceChar, fenceChar, fenceChar]

/-- The anchored phrase of `re.sub(r"^\s*Here is the code:\s*", "", s,
flags=IGNORECASE)`, lowercased for the case-insensitive comparison. -/
def herePhrase : PyStr := ("here is the code:").toList

/-- The phrase-removal step, applied to the already-stripped draft (so the
leading `\s*` of the pattern is empty; the trailing greedy `\s*` removes
all whitespace after the phrase; `^` is anchored, so at most one removal). -/
def stripHerePhrase (s : PyStr) : PyStr :=
  if ciHasPfx herePhrase s then (s.drop herePhrase.length).dropWhile pyWs else s

/-- `str.splitlines()` (newline separators). -/
def pySplitlines (s : PyStr) : List PyStr :=
  if s = [] then []
  else if s.getLast? = some '\n' then (splitOnChar '\n' s).dropLast
  else splitOnChar '\n' s

/-- `line.lstrip().startswith(3 fence markers)`. -/
def fenceLine (l : PyStr) : Bool := fence3.isPrefixOf (l.dropWhile pyWs)

/-- Drop the first line when it is a fence line. -/
def dropLeadFence (lines : List PyStr) : List PyStr :=
  match lines with
  | [] => []
  | l0 :: rest => if fenceLine l0 then rest else l0 :: rest

/-- Drop the last line when it is a fence line. -/
def dropTailFence (lines : List PyStr) : List PyStr :=
  match lines.getLast? with
  | none => lines
  | some ll => if fenceLine ll then lines.dropLast else lines

/-- Drop a leading and a trailing fence line (one layer, not recursive). -/
def stripFenceLines (lines : List PyStr) : List PyStr :=
  dropTailFence (dropLeadFence lines)

/-- `strip_code_fences`: strip, remove a leading phrase occurrence, remove
one fence layer, join and strip again. -/
def strip_code_fences (text : PyStr) : PyStr :=
  if text = [] then []
  else
    pyStrip (List.intercalate ['\n']
      (stripFenceLines (pySplitlines (stripHerePhrase (pyStrip text)))))

/-- The content the single-file fallback writes for the entry module:
`draft.rstrip() + "\n"` applied to the fence-stripped draft. -/
def singleFileFinalCode (draft_raw : PyStr) : PyStr :=
  pyRStripWs (strip_code_fences draft_raw) ++ ['\n']

/-! Helper lemmas for the phrase-stripping claim. -/

theorem prefix_stops_at {p x y : PyStr} {c : Char}
    (h : p <+: x ++ c :: y) (hc : c ∉ p) : p <+: x := by
  by_cases hlen : p.length ≤ x.length
  · exact List.prefix_of_prefix_length_le h (List.prefix_append _ _) hlen
  · exfalso
    push_neg at hlen
    have hxp : x <+: p :=
      List.prefix_of_prefix_length_le (List.prefix_append _ _) h (by omega)
    obtain ⟨rest, hrest⟩ := hxp
    obtain ⟨t, ht⟩ := h
    rw [← hrest, List.append_assoc] at ht
    have ht2 : rest ++ t = c :: y := List.append_cancel_left ht
    cases rest with
    | nil =>
      rw [List.append_nil] at hrest
      exact absurd (congrArg List.length hrest) (by omega)
    | cons r0 rs =>
      have hr0 : r0 = c := by
        have := congrArg List.head? ht2
        simpa using this
      apply hc
      rw [← hrest, ← hr0]
      simp

theorem pyRStripWs_reverse (l : PyStr) :
    (pyRStripWs l).reverse = l.reverse.dropWhile pyWs := by
  unfold pyRStripWs
  rw [List.reverse_reverse]

theorem pyRStripWs_isPfx (l : PyStr) : pyRStripWs l <+: l := by
  apply List.reverse_suffix.mp
  rw [pyRStripWs_reverse]
  exact List.dropWhile_suffix _

theorem pyRStripWs_idem (l : PyStr) : pyRStripWs (pyRStripWs l) = pyRStripWs l := by
  show ((pyRStripWs l).reverse.dropWhile pyWs).reverse = pyRStripWs l
  rw [pyRStripWs_reverse,
    dropWhile_eq_self_of_head? (fun c hc => head?_dropWhile_not hc)]
  rw [← pyRStripWs_reverse, List.reverse_reverse]

theorem splitOnChar_head? (c : Char) (s : PyStr) :
    (splitOnChar c s).head? = some (s.takeWhile (fun x => !(x == c))) := by
  induction s with
  | nil => rfl
  | cons x xs ih =>
    unfold splitOnChar
    by_cases hx : x = c
    · rw [if_pos hx]
      subst hx
      rw [List.takeWhile_cons]
      simp
    · rw [if_neg hx]
      cases hsp : splitOnChar c xs with
      | nil => exact absurd hsp (splitOnChar_ne_nil c xs)
      | cons hh tt =>
        rw [hsp] at ih
        simp only [List.head?_cons, Option.some.injEq] at ih
        rw [List.takeWhile_cons]
        have hxb : (!(x == c)) = true := by simpa using hx
        rw [hxb]
        simp [ih]

theorem splitOnChar_length_two_le {c : Char} {s : PyStr} (h : c ∈ s) :
    2 ≤ (splitOnChar c s).length := by
  induction s with
  | nil => simp at h
  | cons x xs ih =>
    unfold splitOnChar
    by_cases hx : x = c
    · rw [if_pos hx]
      have hne := splitOnChar_ne_nil c xs
      have hpos : 0 < (splitOnChar c xs).length := List.length_pos.mpr hne
      simp only [List.length_cons]
      omega
    · rw [if_neg hx]
      have hmem : c ∈ xs := by
        rcases List.mem_cons.mp h with he | hm
        · exact absurd he.symm hx
        · exact hm
      cases hsp : splitOnChar c xs with
      | nil => exact absurd hsp (splitOnChar_ne_nil c xs)
      | cons hh tt =>
        have h2 := ih hmem
        rw [hsp] at h2
        simp only [List.length_cons] at h2 ⊢
        omega

theorem head?_dropLast_of_two_le {α : Type} {l : List α} (h : 2 ≤ l.length) :
    l.dropLast.head? = l.head? := by
  cases l with
  | nil => simp at h
  | cons a t =>
    cases t with
    | nil => simp at h
    | cons b t2 => rfl

theorem pySplitlines_head? {r : PyStr} (h : r ≠ []) :
    (pySplitlines r).head? = some (r.takeWhile (fun x => !(x == '\n'))) := by
  unfold pySplitlines
  rw [if_neg h]
  by_cases hl : r.getLast? = some '\n'
  · rw [if_pos hl]
    rw [head?_dropLast_of_two_le (splitOnChar_length_two_le
      (List.mem_of_mem_getLast? (by rw [hl]; rfl)))]
    exact splitOnChar_head? '\n' r
  · rw [if_neg hl]
    exact splitOnChar_head? '\n' r

theorem dropLeadFence_keep {l0 : PyStr} {t : List PyStr}
    (h : fenceLine l0 = false) : dropLeadFence (l0 :: t) = l0 :: t := by
  show (if fenceLine l0 then t else l0 :: t) = l0 :: t
  rw [h]
  rfl

theorem dropTailFence_head? {l0 : PyStr} {t : List PyStr}
    (h : fenceLine l0 = false) : (dropTailFence (l0 :: t)).head? = some l0 := by
  unfold dropTailFence
  cases t with
  | nil =>
    simp only [show (l0 :: ([] : List PyStr)).getLast? = some l0 from rfl]
    rw [h]
    rfl
  | cons l1 t2 =>
    cases hlast : (l0 :: l1 :: t2).getLast? with
    | none =>
      simp only [hlast]
      rfl
    | some ll =>
      simp only [hlast]
      by_cases hf : fenceLine ll = true
      · rw [if_pos hf]
        rfl
      · rw [if_neg hf]
        rfl

theorem intercalate_head?_eq {lines : List PyStr} {l0 : PyStr}
    (h : lines.head? = some l0) (h0 : l0 ≠ []) :
    (List.intercalate ['\n'] lines).head? = l0.head? := by
  cases lines with
  | nil => simp at h
  | cons a t =>
    simp only [List.head?_cons, Option.some.injEq] at h
    subst h
    cases t with
    | nil =>
      rw [show List.intercalate ['\n'] [a] = a by
        simp [List.intercalate, List.intersperse]]
    | cons q t2 =>
      rw [intercalate_cons_sep '\n' a (q :: t2) (by simp)]
      rw [List.append_assoc, head?_append_left h0]

/-! ## Claim C10 -/

/-- The C10 counterexample draft: the phrase written twice in a row. -/
def c10Draft : PyStr := ("Here is the code:Here is the code:\nx = 1").toList

/--
C10 counterexample: the anchored substitution removes the leading phrase
exactly once (the `^` anchor cannot match again after the first removal),
so for a draft beginning with two consecutive occurrences the persisted
module still begins with `Here is the code:` — the claim's "the written
module never begins with that phrase" fails.
-/
theorem c10_double_phrase_remains :
    ciHasPfx herePhrase (pyStrip c10Draft) = true ∧
      ciHasPfx herePhrase (singleFileFinalCode c10Draft) = true := by
  constructor
  · rfl
  · rfl

/--
C10 amended: for every draft whose stripped text begins (case-
insensitively) with `Here is the code:`, that one leading occurrence and
the whitespace around it are removed before the fence-layer removal; the
written module does not begin with the phrase provided the remainder
after the removal does not itself begin with the phrase and its first
line is not a fence line (a second consecutive occurrence, or one exposed
by dropping a fence line, survives, as the counterexample shows).
-/
theorem c10_phrase_removed_once (text : PyStr)
    (h1 : ciHasPfx herePhrase (pyStrip text) = true)
    (h2 : ∀ l0, (pySplitlines (((pyStrip text).drop herePhrase.length).dropWhile pyWs)).head? =
        some l0 → fenceLine l0 = false)
    (h3 : ciHasPfx herePhrase (((pyStrip text).drop herePhrase.length).dropWhile pyWs) = false) :
    ciHasPfx herePhrase (singleFileFinalCode text) = false := by
  set r : PyStr := ((pyStrip text).drop herePhrase.length).dropWhile pyWs with hrdef
  have htext : text ≠ [] := by
    intro e
    rw [e] at h1
    exact absurd h1 (by decide)
  have hscf : strip_code_fences text =
      pyStrip (List.intercalate ['\n'] (stripFenceLines (pySplitlines r))) := by
    unfold strip_code_fences
    rw [if_neg htext]
    unfold stripHerePhrase
    rw [if_pos h1]
  by_cases hr : r = []
  · unfold singleFileFinalCode
    rw [hscf, hr]
    decide
  · obtain ⟨c0, hc0⟩ : ∃ c, r.head? = some c := by
      cases hrr : r with
      | nil => exact absurd hrr hr
      | cons x xs => exact ⟨x, rfl⟩
    have hc0ws : pyWs c0 = false := by
      rw [hrdef] at hc0
      exact head?_dropWhile_not hc0
    have hc0nl : c0 ≠ '\n' := by
      intro e
      rw [e] at hc0ws
      exact absurd hc0ws (by decide)
    obtain ⟨rs, hcr⟩ : ∃ rs, r = c0 :: rs := by
      cases hrr : r with
      | nil =>
        rw [hrr] at hc0
        exact absurd hc0 (by simp)
      | cons x xs =>
        rw [hrr] at hc0
        simp only [List.head?_cons, Option.some.injEq] at hc0
        refine ⟨xs, ?_⟩
        rw [hc0]
    set line0 : PyStr := r.takeWhile (fun x => !(x == '\n')) with hl0def
    have hl0ne : line0 ≠ [] := by
      rw [hl0def, hcr, List.takeWhile_cons,
        show (!(c0 == '\n')) = true by simpa using hc0nl]
      simp
    have hl0head : line0.head? = some c0 := by
      rw [hl0def, hcr, List.takeWhile_cons,
        show (!(c0 == '\n')) = true by simpa using hc0nl]
      rfl
    have hlines_head : (pySplitlines r).head? = some line0 := by
      rw [pySplitlines_head? hr, hl0def]
    have hfence0 : fenceLine line0 = false := h2 line0 hlines_head
    have hsf_head : (stripFenceLines (pySplitlines r)).head? = some line0 := by
      cases hsp : pySplitlines r with
      | nil =>
        rw [hsp] at hlines_head
        exact absurd hlines_head (by simp)
      | cons a t =>
        rw [hsp] at hlines_head
        simp only [List.head?_cons, Option.some.injEq] at hlines_head
        subst hlines_head
        unfold stripFenceLines
        rw [dropLeadFence_keep hfence0]
        exact dropTailFence_head? hfence0
    have hjoin_head :
        (List.intercalate ['\n'] (stripFenceLines (pySplitlines r))).head? = some c0 := by
      rw [intercalate_head?_eq hsf_head hl0ne, hl0head]
    have hout : pyStrip (List.intercalate ['\n'] (stripFenceLines (pySplitlines r))) =
        pyRStripWs (List.intercalate ['\n'] (stripFenceLines (pySplitlines r))) := by
      unfold pyStrip pyLStripWs
      rw [dropWhile_eq_self_of_head? (fun c hc => by
        rw [hjoin_head] at hc
        cases hc
        exact hc0ws)]
    have hfinal : singleFileFinalCode text =
        pyRStripWs (List.intercalate ['\n'] (stripFenceLines (pySplitlines r))) ++ ['\n'] := by
      unfold singleFileFinalCode
      rw [hscf, hout, pyRStripWs_idem]
    rw [hfinal, Bool.eq_false_iff]
    intro hc
    unfold ciHasPfx at hc
    have hpre := List.isPrefixOf_iff_prefix.mp hc
    rw [show lowerStr (pyRStripWs (List.intercalate ['\n']
          (stripFenceLines (pySplitlines r))) ++ ['\n']) =
        lowerStr (pyRStripWs (List.intercalate ['\n']
          (stripFenceLines (pySplitlines r)))) ++ '\n' :: [] by
      unfold lowerStr
      rw [List.map_append]
      rfl] at hpre
    have hpre2 := prefix_stops_at hpre (by decide)
    have hpre3 : herePhrase <+: lowerStr (List.intercalate ['\n']
        (stripFenceLines (pySplitlines r))) :=
      hpre2.trans ((pyRStripWs_isPfx _).map Char.toLower)
    have hphr : herePhrase <+: lowerStr line0 := by
      cases hsf : stripFenceLines (pySplitlines r) with
      | nil =>
        rw [hsf] at hsf_head
        exact absurd hsf_head (by simp)
      | cons a t3 =>
        rw [hsf] at hsf_head hpre3
        simp only [List.head?_cons, Option.some.injEq] at hsf_head
        subst hsf_head
        cases t3 with
        | nil =>
          rw [show List.intercalate ['\n'] [line0] = line0 by
            simp [List.intercalate, List.intersperse]] at hpre3
          exact hpre3
        | cons b t4 =>
          rw [intercalate_cons_sep '\n' line0 (b :: t4) (by simp)] at hpre3
          rw [List.append_assoc, List.singleton_append] at hpre3
          rw [show lowerStr (line0 ++ '\n' :: List.intercalate ['\n'] (b :: t4)) =
              lowerStr line0 ++ '\n' :: lowerStr (List.intercalate ['\n'] (b :: t4)) by
            unfold lowerStr
            rw [List.map_append]
            rfl] at hpre3
          exact prefix_stops_at hpre3 (by decide)
    have hphr2 : herePhrase <+: lowerStr r := by
      have hl0pre : line0 <+: r := by
        rw [hl0def]
        exact List.takeWhile_prefix _
      exact hphr.trans (hl0pre.map Char.toLower)
    unfold ciHasPfx at h3
    rw [List.isPrefixOf_iff_prefix.mpr hphr2] at h3
    simp at h3

/-- The C10 witness draft: a single phrase occurrence before plain code. -/
def c10Good : PyStr := ("Here is the code: x = 1\nprint(x)\n").toList

/-- C10 witness: the amended theorem applied at a concrete draft whose
remainder neither repeats the phrase nor starts with a fence line. -/
theorem c10_phrase_witness :
    ciHasPfx herePhrase (singleFileFinalCode c10Good) = false :=
  c10_phrase_removed_once c10Good (by decide)
    (by
      intro l0 hl0
      have he : l0 = ("x = 1").toList := by
        rw [show (pySplitlines (((pyStrip c10Good).drop herePhrase.length).dropWhile
            pyWs)).head? = some (("x = 1").toList) from rfl] at hl0
        exact (Option.some.inj hl0).symm
      rw [he]
      rfl)
    (by decide)

/-! ## `Agent.create_program` (agent.py 180-296)

The plan and code-generation LLM calls are external collaborators; the
embedding starts at the returned draft: `draft_direct`/`draft_fallback`
are the decode-oracle inputs of `parse_files_json` on the draft text, and
`draft_raw` is the raw draft consumed by the single-file fallback. -/

/-- The distinct result messages (f-string payloads kept as data). -/
inductive Msg where
  | emptyPlan
  | tooFewPyFiles (n : Nat) (files : List PyStr)
  | missingEntrypoint (p : PyStr)
  | emptyModuleDraft
  | wroteSingle (module req : PyStr)
  | wroteMulti (n : Nat) (module req : PyStr)

/-- `RunResult(ok, message)`. -/
structure RunResult where
  ok : Bool
  message : Msg

/-- `Path(p).parent.as_posix()`. -/
def parentPosix (p : PyStr) : PyStr :=
  match (relSegs p).dropLast with
  | [] => ['.']
  | segs => List.intercalate ['/'] segs

/-- `module_parts[0] if module_parts and module_parts[0] not in ("", ".")
else None` (pathlib parts never contain `""` or `"."`). -/
def packageRootOf (module_path : PyStr) : Option PyStr :=
  match relSegs (norm_rel module_path) with
  | [] => none
  | p0 :: _ => some p0

/-- The stages shared by both write paths: package-marker chains for every
written `.py` file, the same-folder import rewrite, and (unless the model
already provided one at the relocated requirements path) the generated
requirements file; then the success message. -/
def finishPipeline (fs : FS) (written : List PyStr) (modelReq : Bool)
    (module_dir auto_req : PyStr) (package_root : Option PyStr)
    (module_path : PyStr) (astOf : PyStr → Option (List PyImport))
    (stdlib : List PyStr) (repoName : PyStr) : RunResult × FS :=
  let fs2 := (written.filter (fun p => (".py").toList.isSuffixOf p)).foldl
    (fun f p => ensure_init_chain_for_path f p package_root) fs
  let fs3 := enforce_same_folder_imports fs2 module_dir
  let fs4 :=
    if ¬modelReq then
      (generate_requirements_txt_from_imports fs3 auto_req
        (if module_dir = ['.'] ∨ module_dir = [] then [['.']] else [module_dir])
        astOf stdlib repoName).2
    else fs3
  if written.length = 1 then (⟨true, Msg.wroteSingle module_path auto_req⟩, fs4)
  else (⟨true, Msg.wroteMulti written.length module_path auto_req⟩, fs4)

/-- `Agent.create_program`, from the draft stage on. -/
def create_program (draft_direct draft_fallback : Option JValue)
    (draft_raw : PyStr) (module_path : PyStr) (fs : FS)
    (astOf : PyStr → Option (List PyImport)) (stdlib : List PyStr)
    (repoName : PyStr) : RunResult × FS :=
  let module_dir := parentPosix module_path
  let auto_req :=
    if module_dir = ['.'] ∨ module_dir = [] then ("requirements.txt").toList
    else module_dir ++ ('/' :: ("requirements.txt").toList)
  let package_root := packageRootOf module_path
  match parse_files_json draft_direct draft_fallback with
  | .ok files =>
    if ((files.map Prod.fst).filter (fun k => (".py").toList.isSuffixOf k)).length < 2 then
      (⟨false, Msg.tooFewPyFiles
          ((files.map Prod.fst).filter (fun k => (".py").toList.isSuffixOf k)).length
          ((files.map Prod.fst).filter (fun k => (".py").toList.isSuffixOf k))⟩, fs)
    else
      let st := writeFilesLoop fs files module_dir auto_req
      if ¬files.any (fun kv => kv.1 == module_path) then
        (⟨false, Msg.missingEntrypoint module_path⟩, st.fs)
      else
        finishPipeline st.fs st.written st.modelReq module_dir auto_req package_root
          module_path astOf stdlib repoName
  | .err _ =>
    if pyStrip (strip_code_fences draft_raw) = [] then
      (⟨false, Msg.emptyModuleDraft⟩, fs)
    else
      finishPipeline (fsWrite fs module_path (singleFileFinalCode draft_raw))
        [module_path] false module_dir auto_req package_root module_path astOf
        stdlib repoName

/-- The C2 scenario draft: two path-like keys with string values, both
source files, imports entirely local to the pair. -/
def c2Kvs : List (PyStr × JValue) :=
  [(("app.py").toList, JValue.str (("import helper\n").toList)),
   (("helper.py").toList, JValue.str (("x=1\n").toList))]

/--
C2 counterexample: for the draft `{"app.py": "import helper\n",
"helper.py": "x=1\n"}` with entry path `proj/app.py`, the run does NOT
succeed: after the write loop relocates both files into `proj/`, the
entrypoint check `module_path not in files_map` consults the UNRELOCATED
draft keys (`app.py`, `helper.py`), misses `proj/app.py`, and the run
returns failure — so no manifest is generated at all, rather than an
empty-string manifest.
-/
theorem c2_run_fails_counterexample :
    (create_program (some (JValue.obj c2Kvs)) none [] (("proj/app.py").toList) []
      (fun _ => none) [] (("repo").toList)).1.ok = false := rfl

/--
C2 (amended): the full behaviour on the scenario draft with entry path
`proj/app.py`: the files ARE relocated and persisted at `proj/app.py` and
`proj/helper.py` with normalized contents (that part of the claim holds),
but the result is the failure `missingEntrypoint "proj/app.py"` — the
membership test compares the entry path against the draft's unrelocated
keys — and the returned tree ends there: no package markers, no import
rewrite, and no `proj/requirements.txt` (empty or otherwise) is written.
-/
theorem c2_amended_relocated_but_failure :
    create_program (some (JValue.obj c2Kvs)) none [] (("proj/app.py").toList) []
      (fun _ => none) [] (("repo").toList) =
    (⟨false, Msg.missingEntrypoint (("proj/app.py").toList)⟩,
     [((("proj/app.py").toList), ("import helper\n").toList),
      ((("proj/helper.py").toList), ("x=1\n").toList)]) := rfl

/-! ## Claim C5

The marker keys built by `_ensure_init_chain_for_path` are raw strings,
but the source checks and writes each marker at the RESOLVED location
`(repo / init_rel).resolve()`: the physical placement of a marker key is
`toolsResolve repoSegs key`, and "inside the package root" physically
means `segsUnder (repoSegs ++ [r])` of that resolution.  For paths free
of parent-directory segments the two agree; a relocated path carrying a
`..` segment drives the final loop iteration to a marker key whose
resolution leaves the package root. -/

theorem resolveSegs_append_of_clean (l : List Seg) :
    ∀ b : List Seg, (∀ s ∈ l, s ≠ ['.', '.'] ∧ s ≠ ['.']) →
      resolveSegs b l = b ++ l := by
  induction l with
  | nil => intro b h; simp [resolveSegs]
  | cons s t ih =>
    intro b h
    have hs := h s (by simp)
    show List.foldl _ b (s :: t) = _
    rw [List.foldl_cons]
    show resolveSegs
        (if s = ['.', '.'] then b.dropLast else if s = ['.'] then b else b ++ [s]) t = _
    rw [if_neg hs.1, if_neg hs.2]
    rw [ih (b ++ [s]) (fun x hx => h x (List.mem_cons_of_mem _ hx))]
    simp

theorem relSegs_mem_facts {s : PyStr} {x : Seg} (h : x ∈ relSegs s) :
    ¬(x = [] ∨ x = ['.']) ∧ '/' ∉ x := by
  unfold relSegs at h
  rw [List.mem_filter] at h
  refine ⟨?_, splitOnChar_no_sep '/' s x h.1⟩
  intro hor
  have h2 := h.2
  rcases hor with e | e
  · subst e; simp at h2
  · subst e; simp at h2

theorem relSegs_markerKey {segs : List Seg} (hne : segs ≠ [])
    (h : ∀ x ∈ segs, ¬(x = [] ∨ x = ['.']) ∧ '/' ∉ x) :
    relSegs (markerKey segs) = segs ++ [initPy] := by
  unfold relSegs markerKey
  rw [splitOnChar_intercalate (by simp)
    (by
      intro p hp
      rcases List.mem_append.mp hp with hp1 | hp1
      · exact (h p hp1).2
      · simp only [List.mem_singleton] at hp1
        subst hp1
        decide)]
  rw [List.filter_eq_self.mpr]
  intro a ha
  rcases List.mem_append.mp ha with ha1 | ha1
  · have h2 := not_or.mp (h a ha1).1
    simp [List.isEmpty_iff, h2.1, h2.2]
  · simp only [List.mem_singleton] at ha1
    subst ha1
    decide

theorem markerKey_head_ne_slash {r : Seg} (l : List Seg) (hne : r ≠ [])
    (hsl : '/' ∉ r) : (markerKey (r :: l)).head? ≠ some '/' := by
  rw [markerKey_cons, head?_append_left hne]
  intro hc
  exact hsl (List.mem_of_mem_head? hc)

/-- The repository root segments for the concrete escape run
(`/root/repo`, the same root as the sandbox analysis). -/
def c5RepoSegs : List Seg := [("root").toList, ("repo").toList]

/-- A relocated draft path carrying a parent-directory segment: path-like
for the parser, kept unchanged by relocation into `proj` (it already
starts with `proj/`), and its first segment equals the PackageRoot. -/
def c5EvilPath : PyStr := ("proj/../x.py").toList

/-- The marker key the final loop iteration creates for that path. -/
def c5EvilMarker : PyStr := ("proj/../__init__.py").toList

/--
C5 counterexample: running the init chain on the relocated path
`proj/../x.py` with PackageRoot `proj` creates the marker key
`proj/../__init__.py`; `Tools.write` accepts that key (its resolution
stays inside the repository), but the physical file it checks and writes,
`(repo / "proj/../__init__.py").resolve()`, is the repository-root
`__init__.py` — outside the package root `proj`.  The claim's "no marker
file is ever created outside r" is false of the program.
-/
theorem c5_marker_escapes_root :
    ensure_init_chain_for_path [] c5EvilPath (some (("proj").toList)) =
      [((("proj/__init__.py").toList), []), (c5EvilMarker, [])] ∧
    toolsSafeAccepts c5RepoSegs c5EvilMarker = true ∧
    toolsResolve c5RepoSegs c5EvilMarker = c5RepoSegs ++ [initPy] ∧
    segsUnder (c5RepoSegs ++ [("proj").toList])
      (toolsResolve c5RepoSegs c5EvilMarker) = false :=
  ⟨by decide, by decide, by decide, by decide⟩

/--
C5 (amended): for a source-file path materialized strictly under the
PackageRoot `r` (normalized path ending in `.py`, segment decomposition
`r :: rest` with `rest` nonempty, its last element being the filename),
after `_ensure_init_chain_for_path` runs: (1) a marker file `__init__.py`
exists at every directory level from `r` down to and including the file's
immediate parent (`r :: rest.take j` for `j = 0 .. rest.length - 1`);
(2) every pre-existing file, markers included, keeps its exact content
(never overwritten); (3) every newly created entry is one of those chain
markers and its raw key lies under `r` (starts with `r + "/"`); (4) a run
with no PackageRoot is a no-op; (5) a path whose first segment is not the
PackageRoot is a no-op; (6) when no segment of the path is the
parent-directory segment `..`, every newly created marker also lies under
`r` PHYSICALLY: its key resolved against any repository root
(`(repo / key).resolve()`) stays below `repo/r`.  Conjunct 6's proviso is
necessary: for a `..`-carrying path the final marker key resolves outside
`r`, as the counterexample shows, so the original claim's unconditional
"no marker file is ever created outside r" fails.
-/
theorem c5_init_chain_markers (fs : FS) (rel : PyStr) (r : Seg) (rest : List Seg)
    (hpy : (".py").toList.isSuffixOf (norm_rel rel) = true)
    (hparts : relSegs (norm_rel rel) = r :: rest)
    (hrest : rest ≠ []) :
    (∀ j, j ≤ rest.length - 1 →
        fsExists (ensure_init_chain_for_path fs rel (some r))
          (markerKey (r :: rest.take j)) = true) ∧
      (∀ k v, fsGet fs k = some v →
        fsGet (ensure_init_chain_for_path fs rel (some r)) k = some v) ∧
      (∀ k, fsExists (ensure_init_chain_for_path fs rel (some r)) k = true →
        fsExists fs k = true ∨
          ∃ j, j ≤ rest.length - 1 ∧ k = markerKey (r :: rest.take j) ∧
            (r ++ ['/']).isPrefixOf k = true) ∧
      (∀ (fs₂ : FS) (rel₂ : PyStr),
        ensure_init_chain_for_path fs₂ rel₂ none = fs₂) ∧
      (∀ (fs₃ : FS) (rel₃ : PyStr) (r₃ : Seg),
        (relSegs (norm_rel rel₃)).head? ≠ some r₃ →
        ensure_init_chain_for_path fs₃ rel₃ (some r₃) = fs₃) ∧
      ((∀ x ∈ r :: rest, x ≠ ['.', '.']) →
        ∀ (repoSegs : List Seg) (k : PyStr),
          fsExists (ensure_init_chain_for_path fs rel (some r)) k = true →
          fsExists fs k = false →
          segsUnder (repoSegs ++ [r]) (toolsResolve repoSegs k) = true) := by
  have hrok := relSegs_head_ok hparts
  have e : ensure_init_chain_for_path fs rel (some r) =
      initChainGo fs [r] rest.dropLast := by
    unfold ensure_init_chain_for_path
    rw [if_neg (fun hc => hc hpy)]
    show (if r = [] ∨ r = ['.'] then fs
          else match relSegs (norm_rel rel) with
          | [] => fs
          | p0 :: rest => if p0 ≠ r then fs else initChainGo fs [p0] rest.dropLast) = _
    rw [if_neg hrok, hparts]
    show (if r ≠ r then fs else initChainGo fs [r] rest.dropLast) = _
    rw [if_neg (fun hc => hc rfl)]
  refine ⟨?_, ?_, ?_, ?_, ?_, ?_⟩
  · intro j hj
    rw [e]
    have hj' : j ≤ rest.dropLast.length := by
      rw [List.length_dropLast]; exact hj
    have hm := initChainGo_marker rest.dropLast fs [r] j hj'
    rwa [take_dropLast_eq rest j hj, List.singleton_append] at hm
  · intro k v h
    rw [e]
    exact initChainGo_preserve _ _ _ _ _ h
  · intro k h
    rw [e] at h
    rcases initChainGo_new_keys _ _ _ _ h with h1 | ⟨j, hj, hk⟩
    · exact Or.inl h1
    · refine Or.inr ⟨j, ?_, ?_, ?_⟩
      · rw [List.length_dropLast] at hj; exact hj
      · rw [hk, take_dropLast_eq rest j (by rw [List.length_dropLast] at hj; exact hj),
          List.singleton_append]
      · rw [hk, take_dropLast_eq rest j (by rw [List.length_dropLast] at hj; exact hj),
          List.singleton_append]
        exact markerKey_cons_pfx r _
  · intro fs₂ rel₂
    unfold ensure_init_chain_for_path
    split
    · rfl
    · rfl
  · intro fs₃ rel₃ r₃ hhead
    unfold ensure_init_chain_for_path
    split
    · rfl
    · show (if r₃ = [] ∨ r₃ = ['.'] then fs₃
            else match relSegs (norm_rel rel₃) with
            | [] => fs₃
            | p0 :: rest => if p0 ≠ r₃ then fs₃ else initChainGo fs₃ [p0] rest.dropLast) = _
      by_cases hr3 : r₃ = [] ∨ r₃ = ['.']
      · rw [if_pos hr3]
      · rw [if_neg hr3]
        cases hsegs : relSegs (norm_rel rel₃) with
        | nil => rfl
        | cons p0 rest' =>
          have hne : p0 ≠ r₃ := by
            intro hp
            exact hhead (by rw [hsegs, hp]; rfl)
          show (if p0 ≠ r₃ then fs₃ else initChainGo fs₃ [p0] rest'.dropLast) = _
          rw [if_pos hne]
  · intro hnodot repoSegs k hnew hold
    rw [e] at hnew
    rcases initChainGo_new_keys _ _ _ _ hnew with h1 | ⟨j, hj, hk⟩
    · rw [hold] at h1
      exact absurd h1 (by simp)
    · rw [take_dropLast_eq rest j (by rw [List.length_dropLast] at hj; exact hj),
        List.singleton_append] at hk
      have hsub : ∀ x ∈ r :: rest.take j, x ∈ r :: rest := by
        intro x hx
        rcases List.mem_cons.mp hx with hx1 | hx1
        · exact hx1 ▸ List.mem_cons_self _ _
        · exact List.mem_cons_of_mem _ (List.mem_of_mem_take hx1)
      have hmm : ∀ x ∈ r :: rest.take j, ¬(x = [] ∨ x = ['.']) ∧ '/' ∉ x := by
        intro x hx
        apply relSegs_mem_facts (s := norm_rel rel)
        rw [hparts]
        exact hsub x hx
      have hrk : relSegs k = (r :: rest.take j) ++ [initPy] := by
        rw [hk]
        exact relSegs_markerKey (by simp) hmm
      have hrfacts := hmm r (List.mem_cons_self _ _)
      have hhead2 : k.head? ≠ some '/' := by
        rw [hk]
        exact markerKey_head_ne_slash _ (fun hc => hrfacts.1 (Or.inl hc)) hrfacts.2
      have htr : toolsResolve repoSegs k =
          repoSegs ++ ((r :: rest.take j) ++ [initPy]) := by
        unfold toolsResolve
        rw [if_neg hhead2, hrk]
        apply resolveSegs_append_of_clean
        intro x hx
        rcases List.mem_append.mp hx with hx1 | hx1
        · exact ⟨hnodot x (hsub x hx1), fun hc => (hmm x hx1).1 (Or.inr hc)⟩
        · simp only [List.mem_singleton] at hx1
          subst hx1
          exact ⟨by decide, by decide⟩
      rw [htr]
      unfold segsUnder
      apply List.isPrefixOf_iff_prefix.mpr
      have e2 : repoSegs ++ ((r :: rest.take j) ++ [initPy]) =
          (repoSegs ++ [r]) ++ (rest.take j ++ [initPy]) := by simp
      rw [e2]
      exact List.prefix_append _ _

/-- C5 witness: the chain theorem applied at the concrete path
`proj/sub/mod.py` with PackageRoot `proj` on an initially empty tree
(the spec's own scenario: markers at `proj/` and `proj/sub/` only, and —
since the path has no `..` segment — both resolve under `repo/proj` for
every repository root). -/
theorem c5_init_chain_witness :
    (∀ j, j ≤ ([("sub").toList, ("mod.py").toList] : List Seg).length - 1 →
        fsExists (ensure_init_chain_for_path [] (("proj/sub/mod.py").toList)
            (some (("proj").toList)))
          (markerKey ((("proj").toList) :: ([("sub").toList, ("mod.py").toList] : List Seg).take j)) = true) ∧
      (∀ k v, fsGet [] k = some v →
        fsGet (ensure_init_chain_for_path [] (("proj/sub/mod.py").toList)
            (some (("proj").toList))) k = some v) ∧
      (∀ k, fsExists (ensure_init_chain_for_path [] (("proj/sub/mod.py").toList)
            (some (("proj").toList))) k = true →
        fsExists ([] : FS) k = true ∨
          ∃ j, j ≤ ([("sub").toList, ("mod.py").toList] : List Seg).length - 1 ∧
            k = markerKey ((("proj").toList) :: ([("sub").toList, ("mod.py").toList] : List Seg).take j) ∧
            ((("proj").toList) ++ ['/']).isPrefixOf k = true) ∧
      (∀ (fs₂ : FS) (rel₂ : PyStr),
        ensure_init_chain_for_path fs₂ rel₂ none = fs₂) ∧
      (∀ (fs₃ : FS) (rel₃ : PyStr) (r₃ : Seg),
        (relSegs (norm_rel rel₃)).head? ≠ some r₃ →
        ensure_init_chain_for_path fs₃ rel₃ (some r₃) = fs₃) ∧
      ((∀ x ∈ (("proj").toList) :: ([("sub").toList, ("mod.py").toList] : List Seg),
          x ≠ ['.', '.']) →
        ∀ (repoSegs : List Seg) (k : PyStr),
          fsExists (ensure_init_chain_for_path [] (("proj/sub/mod.py").toList)
            (some (("proj").toList))) k = true →
          fsExists ([] : FS) k = false →
          segsUnder (repoSegs ++ [(("proj").toList)]) (toolsResolve repoSegs k) = true) :=
  c5_init_chain_markers [] (("proj/sub/mod.py").toList) (("proj").toList)
    [("sub").toList, ("mod.py").toList] (by decide) (by decide) (by decide)
